import Mathlib

/-!
Verification of the recursive dependency resolution and download engine of
verdaccio-offline-sync (packages/verdaccio-ingest-middleware).

The definitions below are a shallow embedding of the TypeScript source:
`DependencyResolver` (dependency-resolver.ts) and `PackageDownloader`
(downloader.ts).  JavaScript `Map`s are modelled as association lists with
JS `Map` semantics (`set` on an absent key appends; `get` returns the last
binding), JS `Set`s as duplicate-free lists in insertion order, and the
external collaborators (pacote registry fetches, the node-semver range
satisfaction test and version precedence, fs writes) as explicit function
parameters, so every run of the model is a pure computation.
-/

namespace VOS

/-- Association-list lookup returning the first binding for a key.  Models
`Map.get` for maps that are only ever extended on absent keys (so at most one
binding per key exists). -/
def alookup {α : Type} (k : String) : List (String × α) → Option α
  | [] => none
  | (k', v) :: rest => if k' = k then some v else alookup k rest

/-- Lookup returning the last binding for a key.  Models `new Map(entries)`
followed by `get`: for duplicate keys, the later entry wins. -/
def lookupLast {α : Type} (k : String) (l : List (String × α)) : Option α :=
  alookup k l.reverse

/-- JS `Set.add` on a set represented as a duplicate-free list in insertion
order. -/
def setAdd (l : List String) (v : String) : List String :=
  if v ∈ l then l else l ++ [v]

/-- Parsed semantic version as produced by `semver.parse`: major, minor and
patch numbers plus the list of prerelease identifiers (empty for a stable
version). -/
structure SemVer where
  major : Nat
  minor : Nat
  patch : Nat
  prerelease : List String
deriving DecidableEq, Repr

/-- Strict lexicographic order on (major, minor, patch) triples. -/
def tLt (a b : Nat × Nat × Nat) : Bool :=
  if a.1 < b.1 then true
  else if b.1 < a.1 then false
  else if a.2.1 < b.2.1 then true
  else if b.2.1 < a.2.1 then false
  else a.2.2 < b.2.2

/-- Non-strict lexicographic order on (major, minor, patch) triples. -/
def tLe (a b : Nat × Nat × Nat) : Bool :=
  tLt a b || a = b

def SemVer.triple (s : SemVer) : Nat × Nat × Nat :=
  (s.major, s.minor, s.patch)

/-- Version precedence restricted to the stable versions the resolver's
sibling search compares (`semver.maxSatisfying` internally): on versions with
no prerelease identifiers, node-semver precedence is exactly the
lexicographic order on (major, minor, patch). -/
def svLt (a b : SemVer) : Bool :=
  tLt a.triple b.triple

/-- Satisfaction of the constructed range `>=M.m.0 <M.(m+1).0` (the
"latest patch of the same minor series" search in `findSiblingVersions`).
A comparator without prerelease identifiers is never satisfied by a
prerelease version under node-semver's default rules, hence the
`prerelease.isEmpty` conjunct. -/
def patchRangePred (major minor : Nat) (s : SemVer) : Bool :=
  s.prerelease.isEmpty && tLe (major, minor, 0) s.triple && tLt s.triple (major, minor + 1, 0)

/-- Satisfaction of the constructed range `>=M.0.0 <(M+1).0.0` (the
"latest minor of the same major series" search in `findSiblingVersions`). -/
def minorRangePred (major : Nat) (s : SemVer) : Bool :=
  s.prerelease.isEmpty && tLe (major, 0, 0) s.triple && tLt s.triple (major + 1, 0, 0)

/-- One step of the maximum-satisfying scan: keep the satisfying candidate
of highest precedence (ties keep the earlier element). -/
def maxSatStep (parse : String → Option SemVer) (pred : SemVer → Bool)
    (acc : Option (String × SemVer)) (v : String) : Option (String × SemVer) :=
  match parse v with
  | none => acc
  | some s =>
    if pred s then
      match acc with
      | none => some (v, s)
      | some (_, ms) => if svLt ms s then some (v, s) else acc
    else acc

/-- Models `semver.maxSatisfying(versions, range)` for the concrete ranges
built by `findSiblingVersions`: the highest version string (by precedence of
its parse) whose parse satisfies `pred`. -/
def maxSatisfyingBy (parse : String → Option SemVer) (pred : SemVer → Bool)
    (versions : List String) : Option String :=
  (versions.foldl (maxSatStep parse pred) none).map Prod.fst

/-- The stable candidate pool of `findSiblingVersions`: available versions
that parse and carry no prerelease identifiers. -/
def stableFilter (parse : String → Option SemVer) (availableVersions : List String) :
    List String :=
  availableVersions.filter (fun v =>
    match parse v with
    | some s => s.prerelease.isEmpty
    | none => false)

/-- Conditional insertion of a sibling candidate: added only when the
candidate exists, is truthy (`if (latestPatch && ...)` on the string) and is
not already a cached version. -/
def sibAdd (cachedVersions result : List String) (cand : Option String) : List String :=
  match cand with
  | some y => if y ≠ "" ∧ y ∉ cachedVersions then setAdd result y else result
  | none => result

/-- The per-cached-version body of `findSiblingVersions`: skip unparseable
versions, then add the latest same-minor patch and the latest same-major
minor from the stable candidate pool. -/
def sibStep (parse : String → Option SemVer)
    (cachedVersions stableAvailable result : List String)
    (cachedVersion : String) : List String :=
  match parse cachedVersion with
  | none => result
  | some p =>
    sibAdd cachedVersions
      (sibAdd cachedVersions result
        (maxSatisfyingBy parse (patchRangePred p.major p.minor) stableAvailable))
      (maxSatisfyingBy parse (minorRangePred p.major) stableAvailable)

/-- Models `DependencyResolver.findSiblingVersions` (dependency-resolver.ts
lines 610-647).  For every cached version that parses, the highest stable
available version in the same-minor range and the highest stable available
version in the same-major range are added to the result set, each only when
it is not already a cached version. -/
def findSiblingVersions (parse : String → Option SemVer)
    (cachedVersions availableVersions : List String) : List String :=
  cachedVersions.foldl
    (sibStep parse cachedVersions (stableFilter parse availableVersions)) []

/-- Download reason attached to a planned package
(`PackageToDownload.reason`). -/
inductive Reason
  | newerVersion
  | missingDependency
  | siblingVersion
  | platformBinary
deriving DecidableEq, Repr

/-- An element of the resolver's download plan. -/
structure PackageToDownload where
  name : String
  version : String
  reason : Reason
  requiredBy : Option String
deriving DecidableEq, Repr

/-- The `name@version` dedup key used by the resolver. -/
def pkgKey (p : PackageToDownload) : String :=
  p.name ++ "@" ++ p.version

/-- One step of the dedup fold: keep the first-seen entry per
`name@version` key. -/
def dedupStep (seen : List (String × PackageToDownload)) (pkg : PackageToDownload) :
    List (String × PackageToDownload) :=
  if (alookup (pkgKey pkg) seen).isSome then seen
  else seen ++ [(pkgKey pkg, pkg)]

/-- Models `DependencyResolver.deduplicatePackages` (lines 410-421): fold the
list into a `Map` keyed by `name@version`, keeping the first-seen entry, and
return the values in insertion order. -/
def deduplicatePackages (packages : List PackageToDownload) : List PackageToDownload :=
  (packages.foldl dedupStep []).map Prod.snd

/-- Models `PackageDownloader.getConcurrency` (downloader.ts lines 229-235)
for integer configurations: a missing or non-finite configured value
(`Number(undefined)` is `NaN`) and any non-positive value yield the default
5; positive values are clamped into [1, 50]. -/
def getConcurrency (concurrency : Option Int) : Int :=
  match concurrency with
  | none => 5
  | some c => if c ≤ 0 then 5 else max 1 (min 50 c)

/-- A resolved package handed to the downloader (`ResolvedPackage`, trimmed
to the fields `downloadAll` observes). -/
structure ResolvedPkg where
  name : String
  version : String
deriving DecidableEq, Repr

/-- The success record produced by `downloadPackage` (`DownloadResult`):
the package, tarball location, digests, size and fetched manifest name. -/
structure DownloadResultM where
  pkg : ResolvedPkg
  tarballPath : String
  shasum : String
  integrity : String
  size : Nat
deriving DecidableEq, Repr

/-- Models `PackageDownloader.downloadAll` (downloader.ts lines 38-63).  Each
item is attempted through the bounded pool; a successful `downloadPackage`
pushes its result onto `results`, a failure is logged and rethrown, and
`Promise.allSettled` discards the rejections, so the returned list holds the
successful results only.  The per-item outcome is abstracted as `dl`; the
sequential fold preserves the set of pushed results (the worker pool only
changes completion order). -/
def downloadAll (dl : ResolvedPkg → Except String DownloadResultM)
    (packages : List ResolvedPkg) : List DownloadResultM :=
  packages.foldl (fun results p =>
    match dl p with
    | .ok r => results ++ [r]
    | .error _ => results) []

/-- An observable step of `downloadPackage` (downloader.ts lines 84-137). -/
inductive DlStep
  | mkdirDir (dir : String)
  | fetchTarball (spec : String)
  | writeStore (path : String)
  | fetchManifest (spec : String)
deriving DecidableEq, Repr

/-- Models `PackageDownloader.getPackagePath` (lines 431-433):
`path.join(storagePath, packageName)`. -/
def getPackagePath (storagePath packageName : String) : String :=
  storagePath ++ "/" ++ packageName

/-- Replace the first occurrence of a character by a replacement string,
modelling JS `String.replace` with a plain (non-global) pattern. -/
def replaceFirstChar : List Char → Char → List Char → List Char
  | [], _, _ => []
  | x :: xs, c, r => if x = c then r ++ xs else x :: replaceFirstChar xs c r

/-- Models `PackageDownloader.getTarballName` (lines 438-441):
`packageName.replace('@', '').replace('/', '-')` followed by
`-version.tgz`. -/
def getTarballName (packageName version : String) : String :=
  (replaceFirstChar (replaceFirstChar packageName.toList '@' []) '/' ['-']).asString
    ++ "-" ++ version ++ ".tgz"

/-- Models the step sequence of `PackageDownloader.downloadPackage` (lines
84-137): ensure the directory exists, fetch the tarball, reject an empty
payload, hash, write the bytes to the store, then fetch the full manifest.
`tarballLen` abstracts `pacote.tarball` (`none` for a rejected fetch, the
byte count otherwise).  The second component is the returned tarball path
(`none` when the call throws). -/
def downloadPackageSteps (storagePath : String) (tarballLen : String → Option Nat)
    (name version : String) : List DlStep × Option String :=
  let spec := name ++ "@" ++ version
  let tarballDir := getPackagePath storagePath name
  let tarballPath := tarballDir ++ "/" ++ getTarballName name version
  match tarballLen spec with
  | none => ([.mkdirDir tarballDir, .fetchTarball spec], none)
  | some n =>
    if n = 0 then ([.mkdirDir tarballDir, .fetchTarball spec], none)
    else ([.mkdirDir tarballDir, .fetchTarball spec, .writeStore tarballPath,
           .fetchManifest spec], some tarballPath)

/-- Whether a download step mutates the Local Package Store. -/
def mutatesStore : DlStep → Bool
  | .mkdirDir _ => true
  | .writeStore _ => true
  | _ => false

/-- A per-version manifest as kept by the trimmed packument
(`trimPackument`, dependency-resolver.ts lines 428-454): only the fields
the graph expansion reads. -/
structure Manifest where
  mname : String
  mversion : String
  dependencies : List (String × String)
  devDependencies : List (String × String)
  peerDependencies : List (String × String)
  optionalDependencies : List (String × String)
deriving DecidableEq, Repr

/-- A trimmed packument: `dist-tags` and the per-version manifests. -/
structure Packument where
  distTags : List (String × String)
  versions : List (String × Manifest)
deriving DecidableEq, Repr

/-- A package already present in the local store (`CachedPackage`). -/
structure CachedPackage where
  name : String
  versions : List String
deriving DecidableEq, Repr

/-- The refreshed metadata summary produced by `refreshMetadata`
(`RefreshedMetadata`): dist-tags and the list of known version keys. -/
structure RefreshedMetadata where
  name : String
  distTags : List (String × String)
  versions : List String
deriving DecidableEq, Repr

/-- The resolver's sync options (`SyncOptions`).  `maxDepth` is `Option Int`:
`none` models an absent (`undefined`) field. -/
structure SyncOptions where
  updateToLatest : Bool
  completeSiblingVersions : Bool
  includeDev : Bool
  includePeer : Bool
  includeOptional : Bool
  maxDepth : Option Int
deriving DecidableEq, Repr

/-- Models `options.maxDepth || 50` (dependency-resolver.ts line 212): an
absent `maxDepth` and the falsy value `0` both fall back to 50; every other
integer, including negative ones, is kept. -/
def effectiveMaxDepth (o : SyncOptions) : Int :=
  match o.maxDepth with
  | none => 50
  | some d => if d = 0 then 50 else d

/-- A unit of work in the BFS frontier (`AnalysisTarget`). -/
structure AnalysisTarget where
  name : String
  versionRange : String
  requiredBy : Option String
  reason : Option Reason
deriving DecidableEq, Repr

/-- The mutable state of one resolution run: the packument cache (an
instance field, so it may be pre-populated by `refreshMetadata`), the
`processed` and `analyzedDeps` key sets, and the accumulated plan. -/
structure ResolverState where
  cache : List (String × Packument)
  processed : List String
  analyzedDeps : List String
  missing : List PackageToDownload
deriving DecidableEq, Repr

/-- Models `DependencyResolver.getPackument` (lines 459-492) as observed by
one sequential caller: a cached packument is returned as is; otherwise the
registry is consulted (`reg` abstracts `pacote.packument` composed with
`trimPackument`; `none` is a fetch failure caught and logged).  On success
the trimmed result is cached; on failure nothing is cached and `none` is
returned. -/
def getPackument (reg : String → Option Packument)
    (cache : List (String × Packument)) (name : String) :
    Option Packument × List (String × Packument) :=
  match alookup name cache with
  | some p => (some p, cache)
  | none =>
    match reg name with
    | some p => (some p, cache ++ [(name, p)])
    | none => (none, cache)

/-- Models `prefetchPackuments` (lines 353-372): fetch every name of the
layer through `getPackument`, threading the cache; already-cached names are
no-ops. -/
def prefetchPackuments (reg : String → Option Packument)
    (cache : List (String × Packument)) (names : List String) :
    List (String × Packument) :=
  names.foldl (fun c n => (getPackument reg c n).2) cache

/-- Models `semver.maxSatisfying(versions, range)` for an arbitrary range
string: fold over the versions keeping the satisfying element of highest
precedence.  `sat` abstracts `semver.satisfies` and `cmpLt` node-semver
precedence; the theorems below hold for every choice of both. -/
def maxSatisfyingStr (cmpLt sat : String → String → Bool)
    (versions : List String) (range : String) : Option String :=
  versions.foldl (fun acc v =>
    if sat v range then
      match acc with
      | none => some v
      | some m => if cmpLt m v then some v else acc
    else acc) none

/-- The three resolution branches of `resolveVersionFromCache` (lines
388-404) applied to a fetched packument: exact version-key match, then
dist-tag lookup (skipped when the tag maps to the falsy empty string, per
`if (cached['dist-tags']?.[range])`), then semantic-range resolution. -/
def resolveFromPackument (cmpLt sat : String → String → Bool)
    (cached : Packument) (range : String) : Option String :=
  if (alookup range cached.versions).isSome then some range
  else
    match alookup range cached.distTags with
    | some tagVer =>
      if tagVer = "" then maxSatisfyingStr cmpLt sat (cached.versions.map Prod.fst) range
      else some tagVer
    | none => maxSatisfyingStr cmpLt sat (cached.versions.map Prod.fst) range

/-- Models `DependencyResolver.resolveVersionFromCache` (lines 377-405): on
a cache miss the packument is fetched first (returning `null` when the fetch
fails), then the cached packument resolves the range. -/
def resolveVersionFromCache (reg : String → Option Packument)
    (cmpLt sat : String → String → Bool)
    (cache : List (String × Packument)) (name range : String) :
    Option String × List (String × Packument) :=
  match alookup name cache with
  | some cached => (resolveFromPackument cmpLt sat cached range, cache)
  | none =>
    match reg name with
    | none => (none, cache)
    | some p => (resolveFromPackument cmpLt sat p range, cache ++ [(name, p)])

/-- JS object spread `\x7b...a, ...b\x7d`: keys of `a` in order with values
overridden by `b` where present, followed by the keys of `b` absent from
`a`. -/
def objMerge (a b : List (String × String)) : List (String × String) :=
  a.map (fun kv => (kv.1, (lookupLast kv.1 b).getD kv.2))
    ++ b.filter (fun kv => (alookup kv.1 a).isNone)

/-- Models `collectDependencies` (lines 574-586): regular dependencies
always, dev/peer/optional dependencies gated by the options. -/
def collectDependencies (m : Manifest) (o : SyncOptions) : List (String × String) :=
  objMerge (objMerge (objMerge m.dependencies
    (if o.includeDev then m.devDependencies else []))
    (if o.includePeer then m.peerDependencies else []))
    (if o.includeOptional then m.optionalDependencies else [])

/-- Models `hasMatchingVersion` (lines 591-599).  The catch-branch fallback
(`v === range` when the range string is invalid) is folded into the abstract
satisfaction test `sat`. -/
def hasMatchingVersion (sat : String → String → Bool)
    (versions : List String) (range : String) : Bool :=
  versions.any (fun v => sat v range)

/-- The `name@versionRange` key deduplicating first-layer targets. -/
def targetKey (t : AnalysisTarget) : String :=
  t.name ++ "@" ++ t.versionRange

/-- Models `addFirstLayerTarget` (lines 157-162): insert into the
first-layer map unless the key is already present (first-seen wins). -/
def addFirstLayerTarget (m : List (String × AnalysisTarget)) (t : AnalysisTarget) :
    List (String × AnalysisTarget) :=
  if (alookup (targetKey t) m).isSome then m else m ++ [(targetKey t, t)]

/-- Insertion of one locally cached version as a root target. -/
def seedLocalOne (name : String) (m : List (String × AnalysisTarget))
    (localVersion : String) : List (String × AnalysisTarget) :=
  addFirstLayerTarget m ⟨name, localVersion, some "local-cache", some .missingDependency⟩

/-- Seeding of all locally cached versions of one package. -/
def seedLocalPkg (m : List (String × AnalysisTarget)) (pkg : CachedPackage) :
    List (String × AnalysisTarget) :=
  pkg.versions.foldl (seedLocalOne pkg.name) m

/-- Seeding step one (lines 164-175): every locally cached version becomes a
root target with `requiredBy = "local-cache"` and
`reason = "missing-dependency"`. -/
def seedLocalTargets (cached : List CachedPackage)
    (m0 : List (String × AnalysisTarget)) : List (String × AnalysisTarget) :=
  cached.foldl seedLocalPkg m0

/-- Insertion of one sibling-completion version as a root target. -/
def seedSibOne (name : String) (m : List (String × AnalysisTarget))
    (sibVer : String) : List (String × AnalysisTarget) :=
  addFirstLayerTarget m ⟨name, sibVer, some "complete-sibling-versions", some .siblingVersion⟩

/-- The per-package body of seeding step two. -/
def seedUpdatePkg (parse : String → Option SemVer)
    (metadata : List RefreshedMetadata) (o : SyncOptions)
    (m : List (String × AnalysisTarget)) (pkg : CachedPackage) :
    List (String × AnalysisTarget) :=
  match lookupLast pkg.name (metadata.map (fun md => (md.name, md))) with
  | none => m
  | some meta =>
    let m1 :=
      if o.updateToLatest then
        match alookup "latest" meta.distTags with
        | some latestVersion =>
          if latestVersion ≠ "" ∧ latestVersion ∉ pkg.versions then
            addFirstLayerTarget m
              ⟨pkg.name, latestVersion, some "update-to-latest", some .newerVersion⟩
          else m
        | none => m
      else m
    if o.completeSiblingVersions then
      (findSiblingVersions parse pkg.versions meta.versions).foldl (seedSibOne pkg.name) m1
    else m1

/-- Seeding step two (lines 177-206): for every cached package whose name
appears in the refreshed metadata, add the `latest` dist-tag as a
newer-version target when `updateToLatest` is set and the tag is truthy and
not already cached, and add every sibling-completion version when
`completeSiblingVersions` is set. -/
def seedUpdateTargets (parse : String → Option SemVer)
    (cached : List CachedPackage) (metadata : List RefreshedMetadata)
    (o : SyncOptions) (m0 : List (String × AnalysisTarget)) :
    List (String × AnalysisTarget) :=
  cached.foldl (seedUpdatePkg parse metadata o) m0

/-- The complete first BFS layer: local-cache roots first, then update and
sibling-completion roots, deduplicated by `name@versionRange`. -/
def buildFirstLayer (parse : String → Option SemVer)
    (cached : List CachedPackage) (metadata : List RefreshedMetadata)
    (o : SyncOptions) : List (String × AnalysisTarget) :=
  seedUpdateTargets parse cached metadata o (seedLocalTargets cached [])

/-- Accumulator of one BFS layer: resolver state, the next layer and its
dedup key set. -/
structure LayerAcc where
  st : ResolverState
  nextLayer : List AnalysisTarget
  nextLayerSeen : List String
deriving Repr

/-- Models the per-target body of the BFS loop (lines 235-328): resolve the
range (skipping the target when resolution fails), skip already-processed
`name@version` keys, append to the plan when the store lacks the resolved
version (reason defaulting by depth), and expand the version's dependencies
into the next layer unless some locally cached version already satisfies
the dependency range. -/
def processTarget (reg : String → Option Packument)
    (cmpLt sat : String → String → Bool)
    (cachedMapL : List (String × CachedPackage)) (o : SyncOptions)
    (depth : Nat) (acc : LayerAcc) (t : AnalysisTarget) : LayerAcc :=
  let rc := resolveVersionFromCache reg cmpLt sat acc.st.cache t.name t.versionRange
  let st1 : ResolverState := { acc.st with cache := rc.2 }
  match rc.1 with
  | none => { acc with st := st1 }
  | some resolvedVersion =>
    let key := t.name ++ "@" ++ resolvedVersion
    if key ∈ st1.processed then { acc with st := st1 }
    else
      let st2 := { st1 with processed := st1.processed ++ [key] }
      let hasLocalVersion : Bool :=
        match lookupLast t.name cachedMapL with
        | some cachedPkg => cachedPkg.versions.contains resolvedVersion
        | none => false
      let st3 :=
        if hasLocalVersion then st2
        else { st2 with missing := st2.missing ++
          [{ name := t.name, version := resolvedVersion,
             reason := t.reason.getD
               (if depth = 0 then .newerVersion else .missingDependency),
             requiredBy := t.requiredBy }] }
      if key ∈ st3.analyzedDeps then { acc with st := st3 }
      else
        let st4 := { st3 with analyzedDeps := st3.analyzedDeps ++ [key] }
        match alookup t.name st4.cache with
        | none => { acc with st := st4 }
        | some packument =>
          match alookup resolvedVersion packument.versions with
          | none => { acc with st := st4 }
          | some versionManifest =>
            let dependencies := collectDependencies versionManifest o
            let expanded := dependencies.foldl
              (fun (p : List AnalysisTarget × List String) dep =>
                let hasSatisfyingVersion :=
                  match lookupLast dep.1 cachedMapL with
                  | some depCached => hasMatchingVersion sat depCached.versions dep.2
                  | none => false
                if hasSatisfyingVersion then p
                else
                  let nextKey := dep.1 ++ "@" ++ dep.2
                  if nextKey ∈ p.2 then p
                  else (p.1 ++ [⟨dep.1, dep.2, some key, none⟩], p.2 ++ [nextKey]))
              (acc.nextLayer, acc.nextLayerSeen)
            { st := st4, nextLayer := expanded.1, nextLayerSeen := expanded.2 }

/-- Duplicate-removing name collection, modelling
`[...new Set(currentLayer.map((p) => p.name))]`. -/
def dedupNames (l : List String) : List String :=
  l.foldl setAdd []

/-- One iteration of the BFS loop body (lines 218-336): prefetch the
packuments of the layer's distinct names, then process every target,
producing the updated state and the next layer. -/
def runLayer (reg : String → Option Packument)
    (cmpLt sat : String → String → Bool)
    (cachedMapL : List (String × CachedPackage)) (o : SyncOptions)
    (depth : Nat) (st : ResolverState) (layer : List AnalysisTarget) :
    ResolverState × List AnalysisTarget :=
  let st0 : ResolverState :=
    { st with cache := prefetchPackuments reg st.cache (dedupNames (layer.map (·.name))) }
  let acc := layer.foldl (processTarget reg cmpLt sat cachedMapL o depth)
    ⟨st0, [], []⟩
  (acc.st, acc.nextLayer)

/-- The layered BFS loop `while (currentLayer.length > 0 && depth <=
maxDepth)`.  The guard `depth ≤ maxDepth` is encoded by the fuel argument,
initialised to `(maxDepth + 1).toNat` so that `fuel = 0` exactly when
`depth > maxDepth`; the second component of the result is the final value of
`depth`, i.e. the number of layers processed. -/
def analyzeLoop (reg : String → Option Packument)
    (cmpLt sat : String → String → Bool)
    (cachedMapL : List (String × CachedPackage)) (o : SyncOptions) :
    Nat → ResolverState → List AnalysisTarget → Nat → ResolverState × Nat
  | fuel, st, layer, depth =>
    if layer.isEmpty then (st, depth)
    else
      match fuel with
      | 0 => (st, depth)
      | fuel' + 1 =>
        let step := runLayer reg cmpLt sat cachedMapL o depth st layer
        analyzeLoop reg cmpLt sat cachedMapL o fuel' step.1 step.2 (depth + 1)

/-- Models one full run of `analyzeMissingDependencies` (lines 130-348)
before the final dedup: seed the first layer, then run the depth-bounded
BFS.  `cache0` is the packument cache the resolver instance carries into the
call (possibly pre-populated by `refreshMetadata`).  Returns the final state
and the number of layers processed. -/
def analyzeRun (reg : String → Option Packument)
    (cmpLt sat : String → String → Bool) (parse : String → Option SemVer)
    (cache0 : List (String × Packument)) (cached : List CachedPackage)
    (metadata : List RefreshedMetadata) (o : SyncOptions) :
    ResolverState × Nat :=
  let cachedMapL := cached.map (fun p => (p.name, p))
  let firstLayer := (buildFirstLayer parse cached metadata o).map Prod.snd
  let fuel := (effectiveMaxDepth o + 1).toNat
  analyzeLoop reg cmpLt sat cachedMapL o fuel ⟨cache0, [], [], []⟩ firstLayer 0

/-- The download plan returned by `analyzeMissingDependencies`: the
accumulated plan deduplicated by `name@version`. -/
def analyzeMissingDependencies (reg : String → Option Packument)
    (cmpLt sat : String → String → Bool) (parse : String → Option SemVer)
    (cache0 : List (String × Packument)) (cached : List CachedPackage)
    (metadata : List RefreshedMetadata) (o : SyncOptions) :
    List PackageToDownload :=
  deduplicatePackages (analyzeRun reg cmpLt sat parse cache0 cached metadata o).1.missing

/-- The number of BFS layers a run of `analyzeMissingDependencies`
processes. -/
def analyzeLayerCount (reg : String → Option Packument)
    (cmpLt sat : String → String → Bool) (parse : String → Option SemVer)
    (cache0 : List (String × Packument)) (cached : List CachedPackage)
    (metadata : List RefreshedMetadata) (o : SyncOptions) : Nat :=
  (analyzeRun reg cmpLt sat parse cache0 cached metadata o).2

/-- State of the metadata cache's request coalescing (lines 459-492): the
completed-results map, the set of names with a fetch in flight, and the log
of fetch initiations.  JavaScript's single thread makes the synchronous
prologue of `getPackument` (cache check, in-flight check, fetch start and
in-flight registration) atomic, so each arriving request is one step. -/
structure CacheState where
  cache : List (String × Packument)
  inflight : List String
  fetchStarts : List String
deriving Repr

/-- One request arriving at `getPackument`: a cached name returns
immediately, a name with a pending fetch attaches to it, and otherwise a new
fetch is started and registered in the in-flight map. -/
def requestStep (st : CacheState) (name : String) : CacheState :=
  if (alookup name st.cache).isSome then st
  else if name ∈ st.inflight then st
  else { st with inflight := name :: st.inflight, fetchStarts := name :: st.fetchStarts }

/-- Settlement of the pending fetch for a name (the async body's `try`
completion): a successful result is cached, a failure is not, and the
`finally` clause removes the in-flight entry either way. -/
def completeStep (st : CacheState) (name : String) (result : Option Packument) :
    CacheState :=
  { cache := match result with
      | some p => st.cache ++ [(name, p)]
      | none => st.cache,
    inflight := st.inflight.erase name,
    fetchStarts := st.fetchStarts }

/-- K requests for the same name arriving while no settlement occurs in
between. -/
def requestsN (st : CacheState) (name : String) : Nat → CacheState
  | 0 => st
  | k + 1 => requestStep (requestsN st name k) name

/-! Concrete instances used by counterexamples and witnesses. -/

/-- Manifest of the package `a@1.0.0`, depending on `b@1.0.0`. -/
def mA : Manifest := ⟨"a", "1.0.0", [("b", "1.0.0")], [], [], []⟩

/-- Manifest of the dependency-free package `b@1.0.0`. -/
def mB : Manifest := ⟨"b", "1.0.0", [], [], [], []⟩

/-- Packument of `a`. -/
def packA : Packument := ⟨[("latest", "1.0.0")], [("1.0.0", mA)]⟩

/-- Packument of `b`. -/
def packB : Packument := ⟨[("latest", "1.0.0")], [("1.0.0", mB)]⟩

/-- A registry serving `a` and `b` and failing on every other name. -/
def exReg : String → Option Packument := fun n =>
  if n = "a" then some packA else if n = "b" then some packB else none

/-- A registry on which every fetch fails. -/
def exRegFail : String → Option Packument := fun _ => none

/-- A degenerate version precedence (never less-than). -/
def exCmp : String → String → Bool := fun _ _ => false

/-- Range satisfaction by literal equality, enough for concrete ranges that
are exact versions. -/
def exSat : String → String → Bool := fun v r => v = r

/-- A version parse that rejects every string (sibling completion is off in
the runs using it). -/
def exParse : String → Option SemVer := fun _ => none

/-- A local store holding exactly `a@1.0.0`. -/
def exCached : List CachedPackage := [⟨"a", ["1.0.0"]⟩]

/-- Options with every flag off and an explicit `maxDepth` of 0. -/
def exOpts0 : SyncOptions := ⟨false, false, false, false, false, some 0⟩

/-- Options with every flag off and `maxDepth = -1`. -/
def exOptsNeg : SyncOptions := ⟨false, false, false, false, false, some (-1)⟩

/-- Options with every flag off and `maxDepth = 3`. -/
def exOpts3 : SyncOptions := ⟨false, false, false, false, false, some 3⟩

/-- A packument whose `latest` dist-tag points at a version that is not a
key of its `versions` map. -/
def exPackBadTag : Packument := ⟨[("latest", "2.0.0")], [("1.0.0", mB)]⟩

/-- A packument whose dist-tags all point at version keys. -/
def exPackGoodTag : Packument := ⟨[("latest", "1.0.0")], [("1.0.0", mB)]⟩

/-- A finite table modelling `semver.parse` on the versions of the sibling
completion scenario. -/
def parseEx : String → Option SemVer := fun s =>
  if s = "1.2.0" then some ⟨1, 2, 0, []⟩
  else if s = "1.2.1" then some ⟨1, 2, 1, []⟩
  else if s = "1.2.2" then some ⟨1, 2, 2, []⟩
  else if s = "1.3.0" then some ⟨1, 3, 0, []⟩
  else if s = "1.3.1" then some ⟨1, 3, 1, []⟩
  else if s = "1.4.0" then some ⟨1, 4, 0, []⟩
  else if s = "2.0.0" then some ⟨2, 0, 0, []⟩
  else none

/-- Cached versions of the sibling completion scenario. -/
def sibCached : List String := ["1.2.0", "1.3.0"]

/-- Available upstream versions of the sibling completion scenario. -/
def sibAvail : List String :=
  ["1.2.0", "1.2.1", "1.2.2", "1.3.0", "1.3.1", "1.4.0", "2.0.0"]

/-- A plan item whose download fails. -/
def pFail : ResolvedPkg := ⟨"bad", "1.0.0"⟩

/-- A plan item whose download succeeds. -/
def pOk : ResolvedPkg := ⟨"good", "1.0.0"⟩

/-- The success record of `pOk`. -/
def rOk : DownloadResultM := ⟨pOk, "/s/good/good-1.0.0.tgz", "sha", "int", 10⟩

/-- A per-item outcome: `pOk` succeeds, everything else fails. -/
def dlEx : ResolvedPkg → Except String DownloadResultM := fun p =>
  if p = pOk then .ok rOk else .error "network"

/-- Refreshed metadata for a package `other` only. -/
def exMetaOther : List RefreshedMetadata := [⟨"other", [("latest", "9.0.0")], ["9.0.0"]⟩]

/-- Options with `updateToLatest` and `completeSiblingVersions` on. -/
def exOptsAll : SyncOptions := ⟨true, true, false, false, false, some 3⟩

/-- An empty metadata-cache state. -/
def exCacheState : CacheState := ⟨[], [], []⟩

/-- A packument soundness predicate: every dist-tag points at a key of the
`versions` map. -/
def distTagsSound (p : Packument) : Prop :=
  ∀ tv ∈ p.distTags, (alookup tv.2 p.versions).isSome

/-- Manifest of `a@1.0.0` depending on `q` through the dist-tag range
`latest`. -/
def mA2 : Manifest := ⟨"a", "1.0.0", [("q", "latest")], [], [], []⟩

/-- Packument of `a` for the dist-tag counterexample run. -/
def packA2 : Packument := ⟨[("latest", "1.0.0")], [("1.0.0", mA2)]⟩

/-- A registry serving `a` and the bad-tagged `q`. -/
def exRegBad : String → Option Packument := fun n =>
  if n = "a" then some packA2 else if n = "q" then some exPackBadTag else none

/-! Helper lemmas. -/

theorem alookup_mem {α : Type} {k : String} {l : List (String × α)} {v : α}
    (h : alookup k l = some v) : (k, v) ∈ l := by
  induction l with
  | nil => simp [alookup] at h
  | cons kv rest ih =>
    by_cases hk : kv.1 = k
    · simp [alookup, hk] at h
      cases kv
      simp_all
    · simp [alookup, hk] at h
      exact List.mem_cons_of_mem _ (ih h)

theorem alookup_eq_none_of_keys {α : Type} {k : String} {l : List (String × α)}
    (h : ∀ kv ∈ l, kv.1 ≠ k) : alookup k l = none := by
  induction l with
  | nil => rfl
  | cons kv rest ih =>
    have hk : kv.1 ≠ k := h kv (.head _)
    simp only [alookup, if_neg hk]
    exact ih (fun x hx => h x (.tail _ hx))

theorem alookup_append_of_none {α : Type} {k : String} {l₁ l₂ : List (String × α)}
    (h : alookup k l₁ = none) : alookup k (l₁ ++ l₂) = alookup k l₂ := by
  induction l₁ with
  | nil => rfl
  | cons kv rest ih =>
    by_cases hk : kv.1 = k
    · simp [alookup, hk] at h
    · simp only [alookup, if_neg hk] at h ⊢
      exact ih h

theorem alookup_singleton_self {α : Type} (k : String) (v : α) :
    alookup k [(k, v)] = some v := by
  simp [alookup]

theorem alookup_isSome_of_key_mem {α : Type} {k : String} {l : List (String × α)}
    (h : k ∈ l.map Prod.fst) : (alookup k l).isSome := by
  induction l with
  | nil => simp at h
  | cons kv rest ih =>
    by_cases hk : kv.1 = k
    · simp [alookup, hk]
    · simp only [List.map_cons, List.mem_cons] at h
      rcases h with h | h

      · exact absurd h.symm hk
      · simp only [alookup, if_neg hk]
        exact ih h

theorem tLt_iff (a b : Nat × Nat × Nat) :
    tLt a b = true ↔
      a.1 < b.1 ∨ (a.1 = b.1 ∧ (a.2.1 < b.2.1 ∨ (a.2.1 = b.2.1 ∧ a.2.2 < b.2.2))) := by
  unfold tLt
  split_ifs <;> simp <;> omega

theorem tLt_irrefl (a : Nat × Nat × Nat) : tLt a a = false := by
  cases h : tLt a a with
  | false => rfl
  | true =>
    have := (tLt_iff a a).mp h
    omega

theorem tLt_asymm {a b : Nat × Nat × Nat} (h : tLt a b = true) : tLt b a = false := by
  cases h2 : tLt b a with
  | false => rfl
  | true =>
    have h1 := (tLt_iff a b).mp h
    have h3 := (tLt_iff b a).mp h2
    omega

theorem tLt_trans {a b c : Nat × Nat × Nat}
    (h1 : tLt a b = true) (h2 : tLt b c = true) : tLt a c = true := by
  have h3 := (tLt_iff a b).mp h1
  have h4 := (tLt_iff b c).mp h2
  exact (tLt_iff a c).mpr (by omega)

theorem svLt_irrefl (s : SemVer) : svLt s s = false := tLt_irrefl _

theorem svLt_asymm {s t : SemVer} (h : svLt s t = true) : svLt t s = false :=
  tLt_asymm h

theorem svLt_trans {s t u : SemVer} (h1 : svLt s t = true) (h2 : svLt t u = true) :
    svLt s u = true :=
  tLt_trans h1 h2

theorem requestStep_miss {st : CacheState} {name : String}
    (hc : alookup name st.cache = none) (hf : name ∉ st.inflight) :
    requestStep st name =
      ⟨st.cache, name :: st.inflight, name :: st.fetchStarts⟩ := by
  simp [requestStep, hc, hf]

theorem requestsN_eq_requestStep {st : CacheState} {name : String}
    (hc : alookup name st.cache = none) (hf : name ∉ st.inflight) :
    ∀ K, 1 ≤ K → requestsN st name K = requestStep st name := by
  intro K
  induction K with
  | zero => intro h; omega
  | succ k ih =>
    intro _
    by_cases hk : 1 ≤ k
    · show requestStep (requestsN st name k) name = requestStep st name
      rw [ih hk, requestStep_miss hc hf]
      simp [requestStep, hc]
    · have hk0 : k = 0 := by omega
      subst hk0
      rfl

/-- C8: K sequential requests for the same name, arriving while the first
request's fetch is still pending (no settlement in between), start exactly
one new fetch: the first request registers the fetch in the in-flight map
and every later request attaches to it. -/
theorem C8_dedup_cache_hit (st : CacheState) (name : String) (K : Nat)
    (hK : 1 ≤ K) (hc : alookup name st.cache = none) (hf : name ∉ st.inflight) :
    (requestsN st name K).fetchStarts.count name = st.fetchStarts.count name + 1 := by
  rw [requestsN_eq_requestStep hc hf K hK, requestStep_miss hc hf]
  simp

theorem C8_witness :
    (requestsN exCacheState "lodash" 3).fetchStarts.count "lodash" =
      exCacheState.fetchStarts.count "lodash" + 1 :=
  C8_dedup_cache_hit exCacheState "lodash" 3 (by decide) (by decide) (by decide)

theorem downloadAll_foldl_mem (dl : ResolvedPkg → Except String DownloadResultM)
    (pkgs : List ResolvedPkg) :
    ∀ (acc : List DownloadResultM) (r : DownloadResultM),
      (r ∈ pkgs.foldl (fun results p =>
        match dl p with
        | .ok res => results ++ [res]
        | .error _ => results) acc) ↔ (r ∈ acc ∨ ∃ p ∈ pkgs, dl p = .ok r) := by
  induction pkgs with
  | nil => intro acc r; simp
  | cons q rest ih =>
    intro acc r
    rw [List.foldl_cons, ih]
    cases hdl : dl q with
    | ok res =>
      simp only [hdl, List.mem_append, List.mem_singleton, List.mem_cons,
        List.not_mem_nil, or_false]
      constructor
      · rintro ((h | h) | ⟨p, hp, hdlp⟩)
        · exact Or.inl h
        · exact Or.inr ⟨q, Or.inl rfl, by rw [hdl, h]⟩
        · exact Or.inr ⟨p, Or.inr hp, hdlp⟩
      · rintro (h | ⟨p, hp | hp, hdlp⟩)
        · exact Or.inl (Or.inl h)
        · subst hp
          rw [hdl] at hdlp
          injection hdlp with h
          exact Or.inl (Or.inr h.symm)
        · exact Or.inr ⟨p, hp, hdlp⟩
    | error e =>
      simp only [hdl, List.mem_cons]
      constructor
      · rintro (h | ⟨p, hp, hdlp⟩)
        · exact Or.inl h
        · exact Or.inr ⟨p, Or.inr hp, hdlp⟩
      · rintro (h | ⟨p, hp | hp, hdlp⟩)
        · exact Or.inl h
        · subst hp
          rw [hdl] at hdlp
          cases hdlp
        · exact Or.inr ⟨p, hp, hdlp⟩

/-- C4 (amended): a failure of one item never aborts the batch, but the
result list of `downloadAll` holds exactly the successful items' results:
a failed item contributes no entry (and carries no attached error), so the
failed subset is recoverable only as the plan items without a corresponding
result. -/
theorem C4_downloadAll_successes_only (dl : ResolvedPkg → Except String DownloadResultM)
    (pkgs : List ResolvedPkg) :
    (∀ r, r ∈ downloadAll dl pkgs ↔ ∃ p ∈ pkgs, dl p = .ok r)
    ∧ ((∀ q res, dl q = .ok res → res.pkg = q) → ∀ p ∈ pkgs, (∃ e, dl p = .error e) →
        ∀ r ∈ downloadAll dl pkgs, r.pkg ≠ p) := by
  constructor
  · intro r
    rw [downloadAll, downloadAll_foldl_mem]
    simp
  · intro hdl p _ ⟨e, he⟩ r hr hpkg
    have := (downloadAll_foldl_mem dl pkgs [] r).mp hr
    rcases this with h | ⟨q, _, hq⟩
    · simp at h
    · have : r.pkg = q := hdl q r hq
      rw [hpkg] at this
      rw [← this] at hq
      rw [he] at hq
      cases hq

/-- C4 counterexample: with a two-item plan whose first item fails and
second succeeds, `downloadAll` returns the single success record; the failed
item appears nowhere in the result and no entry carries an error. -/
theorem C4_counterexample :
    downloadAll dlEx [pFail, pOk] = [rOk] ∧ rOk.pkg = pOk ∧ pOk ≠ pFail := by
  decide

theorem C4_witness :
    (rOk ∈ downloadAll dlEx [pFail, pOk])
    ∧ (rOk.pkg ≠ pFail) := by
  refine ⟨((C4_downloadAll_successes_only dlEx [pFail, pOk]).1 rOk).mpr
    ⟨pOk, by decide, by rfl⟩, ?_⟩
  exact (C4_downloadAll_successes_only dlEx [pFail, pOk]).2
    (by
      intro q res h
      by_cases hq : q = pOk
      · subst hq
        simp [dlEx] at h
        rw [← h]
        rfl
      · simp [dlEx, hq] at h)
    pFail (by decide) ⟨"network", by rfl⟩ rOk
    (((C4_downloadAll_successes_only dlEx [pFail, pOk]).1 rOk).mpr ⟨pOk, by decide, by rfl⟩)

/-- C9 counterexample: for a successful download the final step of
`downloadPackage` is the full-manifest fetch, not the store write — the
write is followed by `getManifest`. -/
theorem C9_counterexample :
    (downloadPackageSteps "/s" (fun _ => some 100) "a" "1.0.0").1 =
      [.mkdirDir "/s/a", .fetchTarball "a@1.0.0", .writeStore "/s/a/a-1.0.0.tgz",
       .fetchManifest "a@1.0.0"]
    ∧ (downloadPackageSteps "/s" (fun _ => some 100) "a" "1.0.0").1.getLast? =
      some (.fetchManifest "a@1.0.0") := by
  decide

/-- C9 (amended): the store write is the terminal store-mutating step of the
per-item download (only the idempotent directory creation precedes it, and
only the manifest metadata fetch follows it), and the destination path is
the same pure function of `(name, version)` on every invocation, so a retry
rewrites the same path and cannot corrupt partial state. -/
theorem C9_store_write_terminal_mutation (storagePath : String)
    (tarballLen : String → Option Nat) (name version : String) :
    (∀ p, (downloadPackageSteps storagePath tarballLen name version).2 = some p →
      p = getPackagePath storagePath name ++ "/" ++ getTarballName name version)
    ∧ (∀ q, DlStep.writeStore q ∈ (downloadPackageSteps storagePath tarballLen name version).1 →
      q = getPackagePath storagePath name ++ "/" ++ getTarballName name version)
    ∧ ((downloadPackageSteps storagePath tarballLen name version).1.filter mutatesStore =
        [.mkdirDir (getPackagePath storagePath name)]
      ∨ (downloadPackageSteps storagePath tarballLen name version).1.filter mutatesStore =
        [.mkdirDir (getPackagePath storagePath name),
         .writeStore (getPackagePath storagePath name ++ "/" ++ getTarballName name version)]) := by
  cases h : tarballLen (name ++ "@" ++ version) with
  | none =>
    refine ⟨?_, ?_, ?_⟩
    · intro p hp
      simp [downloadPackageSteps, h] at hp
    · intro q hq
      simp [downloadPackageSteps, h] at hq
    · left
      simp [downloadPackageSteps, h, mutatesStore]
  | some n =>
    by_cases hn : n = 0
    · subst hn
      refine ⟨?_, ?_, ?_⟩
      · intro p hp
        simp [downloadPackageSteps, h] at hp
      · intro q hq
        simp [downloadPackageSteps, h] at hq
      · left
        simp [downloadPackageSteps, h, mutatesStore]
    · refine ⟨?_, ?_, ?_⟩
      · intro p hp
        simp [downloadPackageSteps, h, hn] at hp
        exact hp.symm
      · intro q hq
        simp [downloadPackageSteps, h, hn, mutatesStore] at hq
        exact hq
      · right
        simp [downloadPackageSteps, h, hn, mutatesStore]

theorem C9_witness :
    "/s/a/a-1.0.0.tgz" = getPackagePath "/s" "a" ++ "/" ++ getTarballName "a" "1.0.0" :=
  (C9_store_write_terminal_mutation "/s" (fun _ => some 100) "a" "1.0.0").1
    "/s/a/a-1.0.0.tgz" (by decide)

theorem maxSatisfyingStr_foldl (cmpLt sat : String → String → Bool) (range : String) :
    ∀ (vs : List String) (acc : Option String) (v : String),
      vs.foldl (fun acc v =>
        if sat v range then
          match acc with
          | none => some v
          | some m => if cmpLt m v then some v else acc
        else acc) acc = some v →
      acc = some v ∨ (v ∈ vs ∧ sat v range = true) := by
  intro vs
  induction vs with
  | nil => intro acc v h; exact Or.inl h
  | cons u rest ih =>
    intro acc v h
    rw [List.foldl_cons] at h
    rcases ih _ v h with h' | h'
    · by_cases hs : sat u range
      · rw [if_pos hs] at h'
        cases acc with
        | none =>
          dsimp only at h'
          injection h' with h'
          exact Or.inr ⟨h' ▸ List.mem_cons_self u rest, h' ▸ hs⟩
        | some m =>
          dsimp only at h'
          by_cases hc : cmpLt m u
          · rw [if_pos hc] at h'
            injection h' with h'
            exact Or.inr ⟨h' ▸ List.mem_cons_self u rest, h' ▸ hs⟩
          · rw [if_neg hc] at h'
            exact Or.inl h'
      · rw [if_neg hs] at h'
        exact Or.inl h'
    · exact Or.inr ⟨List.mem_cons_of_mem u h'.1, h'.2⟩

theorem maxSatisfyingStr_mem {cmpLt sat : String → String → Bool}
    {vs : List String} {range v : String}
    (h : maxSatisfyingStr cmpLt sat vs range = some v) : v ∈ vs ∧ sat v range = true := by
  rcases maxSatisfyingStr_foldl cmpLt sat range vs none v h with h' | h'
  · cases h'
  · exact h'

theorem resolveFromPackument_sound {cmpLt sat : String → String → Bool}
    {p : Packument} {range v : String}
    (hp : distTagsSound p) (h : resolveFromPackument cmpLt sat p range = some v) :
    (alookup v p.versions).isSome := by
  unfold resolveFromPackument at h
  by_cases h1 : (alookup range p.versions).isSome
  · rw [if_pos h1] at h
    injection h with h
    exact h ▸ h1
  · rw [if_neg h1] at h
    cases h2 : alookup range p.distTags with
    | some tagVer =>
      rw [h2] at h
      dsimp only at h
      by_cases h3 : tagVer = ""
      · rw [if_pos h3] at h
        exact alookup_isSome_of_key_mem (maxSatisfyingStr_mem h).1
      · rw [if_neg h3] at h
        injection h with h
        exact h ▸ hp (range, tagVer) (alookup_mem h2)
    | none =>
      rw [h2] at h
      dsimp only at h
      exact alookup_isSome_of_key_mem (maxSatisfyingStr_mem h).1

/-- C1 counterexample: in a run whose registry serves `q` with a packument
whose `latest` dist-tag points at `2.0.0` while the `versions` map only has
the key `1.0.0`, the dependency range `latest` resolves to `2.0.0` and the
plan records it, even though `2.0.0` is not a key of the packument's
`versions` map — the dist-tag branch returns the tag's value unchecked. -/
theorem C1_counterexample :
    analyzeMissingDependencies exRegBad exCmp exSat exParse [] exCached [] exOpts3 =
      [⟨"q", "2.0.0", .missingDependency, some "a@1.0.0"⟩]
    ∧ (resolveVersionFromCache exRegBad exCmp exSat
        [("q", exPackBadTag)] "q" "latest").1 = some "2.0.0"
    ∧ alookup "2.0.0" exPackBadTag.versions = none := by
  decide

/-- C1 (amended): version resolution is sound whenever every packument the
resolver can consult (already cached or served by the registry) has
dist-tags that point at keys of its `versions` map: under that invariant,
every resolved version — by exact key match, dist-tag lookup, or highest
satisfying range member — is a key of the resolved packument's `versions`
map.  Without the invariant only the dist-tag branch can escape it. -/
theorem C1_resolution_soundness (reg : String → Option Packument)
    (cmpLt sat : String → String → Bool)
    (cache : List (String × Packument)) (name range v : String)
    (c' : List (String × Packument))
    (hcache : ∀ kv ∈ cache, distTagsSound kv.2)
    (hreg : ∀ n p, reg n = some p → distTagsSound p)
    (h : resolveVersionFromCache reg cmpLt sat cache name range = (some v, c')) :
    ∃ p, alookup name c' = some p ∧ (alookup v p.versions).isSome := by
  unfold resolveVersionFromCache at h
  cases hc : alookup name cache with
  | some cached =>
    rw [hc] at h
    rw [Prod.mk.injEq] at h
    refine ⟨cached, ?_, ?_⟩
    · rw [← h.2]
      exact hc
    · exact resolveFromPackument_sound (hcache _ (alookup_mem hc)) h.1
  | none =>
    rw [hc] at h
    cases hr : reg name with
    | none =>
      rw [hr] at h
      rw [Prod.mk.injEq] at h
      cases h.1
    | some p =>
      rw [hr] at h
      rw [Prod.mk.injEq] at h
      refine ⟨p, ?_, ?_⟩
      · rw [← h.2, alookup_append_of_none hc, alookup_singleton_self]
      · exact resolveFromPackument_sound (hreg name p hr) h.1

theorem C1_witness :
    ∃ p, alookup "pkg" [("pkg", exPackGoodTag)] = some p
      ∧ (alookup "1.0.0" p.versions).isSome :=
  C1_resolution_soundness exRegFail exCmp exSat [("pkg", exPackGoodTag)] "pkg" "latest"
    "1.0.0" [("pkg", exPackGoodTag)]
    (by
      intro kv hkv
      rw [List.mem_singleton] at hkv
      subst hkv
      unfold distTagsSound
      decide)
    (fun n p h => nomatch h) (by decide)

theorem analyzeLoop_zero (reg : String → Option Packument)
    (cmpLt sat : String → String → Bool)
    (cachedMapL : List (String × CachedPackage)) (o : SyncOptions)
    (st : ResolverState) (layer : List AnalysisTarget) (depth : Nat) :
    analyzeLoop reg cmpLt sat cachedMapL o 0 st layer depth = (st, depth) := by
  unfold analyzeLoop
  split <;> rfl

theorem analyzeLoop_count_le (reg : String → Option Packument)
    (cmpLt sat : String → String → Bool)
    (cachedMapL : List (String × CachedPackage)) (o : SyncOptions) :
    ∀ (fuel : Nat) (st : ResolverState) (layer : List AnalysisTarget) (depth : Nat),
      (analyzeLoop reg cmpLt sat cachedMapL o fuel st layer depth).2 ≤ depth + fuel := by
  intro fuel
  induction fuel with
  | zero =>
    intro st layer depth
    rw [analyzeLoop_zero]
    simp
  | succ f ih =>
    intro st layer depth
    unfold analyzeLoop
    split
    · simp
    · dsimp only
      calc (analyzeLoop reg cmpLt sat cachedMapL o f _ _ (depth + 1)).2
          ≤ (depth + 1) + f := ih _ _ _
        _ = depth + (f + 1) := by omega

/-- C2 counterexample: with `maxDepth = 0` the falsy-default fallback
`options.maxDepth || 50` substitutes 50, so the run processes two layers
(not one) and expands the transitive dependency `b` of the seeded package
`a` into the plan. -/
theorem C2_counterexample :
    analyzeLayerCount exReg exCmp exSat exParse [] exCached [] exOpts0 = 2
    ∧ analyzeMissingDependencies exReg exCmp exSat exParse [] exCached [] exOpts0 =
      [⟨"b", "1.0.0", .missingDependency, some "a@1.0.0"⟩] := by
  decide

/-- C2 (amended): for an explicit `maxDepth = D ≥ 1` the layered BFS
processes at most `D + 1` layers; an absent `maxDepth` and the falsy value
`D = 0` both fall back to the resolver-level default 50, bounding the run by
51 layers (so `D = 0` does not restrict the run to the seed layer). -/
theorem C2_layer_bound (reg : String → Option Packument)
    (cmpLt sat : String → String → Bool) (parse : String → Option SemVer)
    (cache0 : List (String × Packument)) (cached : List CachedPackage)
    (metadata : List RefreshedMetadata) (o : SyncOptions) :
    (∀ D : Int, o.maxDepth = some D → 1 ≤ D →
      analyzeLayerCount reg cmpLt sat parse cache0 cached metadata o ≤ D.toNat + 1)
    ∧ ((o.maxDepth = none ∨ o.maxDepth = some 0) →
      analyzeLayerCount reg cmpLt sat parse cache0 cached metadata o ≤ 51) := by
  have hdef : analyzeLayerCount reg cmpLt sat parse cache0 cached metadata o =
      (analyzeLoop reg cmpLt sat (cached.map fun p => (p.name, p)) o
        ((effectiveMaxDepth o + 1).toNat) ⟨cache0, [], [], []⟩
        ((buildFirstLayer parse cached metadata o).map Prod.snd) 0).2 := rfl
  have hb := analyzeLoop_count_le reg cmpLt sat (cached.map fun p => (p.name, p)) o
    ((effectiveMaxDepth o + 1).toNat) ⟨cache0, [], [], []⟩
    ((buildFirstLayer parse cached metadata o).map Prod.snd) 0
  constructor
  · intro D hD h1
    have heff : effectiveMaxDepth o = D := by
      unfold effectiveMaxDepth
      rw [hD]
      dsimp only
      rw [if_neg (by omega)]
    rw [hdef]
    refine le_trans hb ?_
    rw [heff]
    omega
  · intro hcase
    have heff : effectiveMaxDepth o = 50 := by
      unfold effectiveMaxDepth
      rcases hcase with hc | hc <;> rw [hc]
      rfl
    rw [hdef]
    refine le_trans hb ?_
    rw [heff]
    omega

theorem C2_witness :
    analyzeLayerCount exReg exCmp exSat exParse [] exCached [] exOpts3 ≤ 4 :=
  (C2_layer_bound exReg exCmp exSat exParse [] exCached [] exOpts3).1 3 rfl (by decide)

/-- C5 counterexample: invalid configuration does not make the code fail: a
negative or zero concurrency is silently replaced by the default 5, and a
negative `maxDepth` makes the analysis return an empty plan after zero
layers instead of raising a configuration error. -/
theorem C5_counterexample :
    getConcurrency (some (-3)) = 5 ∧ getConcurrency (some 0) = 5
    ∧ analyzeLayerCount exReg exCmp exSat exParse [] exCached [] exOptsNeg = 0
    ∧ analyzeMissingDependencies exReg exCmp exSat exParse [] exCached [] exOptsNeg = [] := by
  decide

/-- C5 (amended): configuration is normalised, never fatal: `getConcurrency`
maps an absent or non-positive concurrency to the default 5 and clamps
positive values into [1, 50], and a negative `maxDepth` makes
`analyzeMissingDependencies` process zero layers and return an empty plan;
no error value exists on either path. -/
theorem C5_config_normalised :
    (∀ c : Int, c ≤ 0 → getConcurrency (some c) = 5)
    ∧ (∀ c : Int, 0 < c → getConcurrency (some c) = max 1 (min 50 c))
    ∧ getConcurrency none = 5
    ∧ (∀ (reg : String → Option Packument) (cmpLt sat : String → String → Bool)
        (parse : String → Option SemVer) (cache0 : List (String × Packument))
        (cached : List CachedPackage) (metadata : List RefreshedMetadata)
        (o : SyncOptions) (D : Int), o.maxDepth = some D → D < 0 →
        analyzeLayerCount reg cmpLt sat parse cache0 cached metadata o = 0
        ∧ analyzeMissingDependencies reg cmpLt sat parse cache0 cached metadata o = []) := by
  refine ⟨?_, ?_, rfl, ?_⟩
  · intro c hc
    unfold getConcurrency
    dsimp only
    rw [if_pos hc]
  · intro c hc
    unfold getConcurrency
    dsimp only
    rw [if_neg (by omega)]
  · intro reg cmpLt sat parse cache0 cached metadata o D hD hneg
    have heff : effectiveMaxDepth o = D := by
      unfold effectiveMaxDepth
      rw [hD]
      dsimp only
      rw [if_neg (by omega)]
    have hfuel : (effectiveMaxDepth o + 1).toNat = 0 := by
      rw [heff]
      omega
    have hcount : analyzeLayerCount reg cmpLt sat parse cache0 cached metadata o =
        (analyzeLoop reg cmpLt sat (cached.map fun p => (p.name, p)) o
          ((effectiveMaxDepth o + 1).toNat) ⟨cache0, [], [], []⟩
          ((buildFirstLayer parse cached metadata o).map Prod.snd) 0).2 := rfl
    have hplan : analyzeMissingDependencies reg cmpLt sat parse cache0 cached metadata o =
        deduplicatePackages
          ((analyzeLoop reg cmpLt sat (cached.map fun p => (p.name, p)) o
            ((effectiveMaxDepth o + 1).toNat) ⟨cache0, [], [], []⟩
            ((buildFirstLayer parse cached metadata o).map Prod.snd) 0).1.missing) := rfl
    rw [hcount, hplan, hfuel, analyzeLoop_zero]
    exact ⟨rfl, rfl⟩

theorem C5_witness :
    getConcurrency (some (-7)) = 5
    ∧ analyzeLayerCount exReg exCmp exSat exParse [] exCached [] exOptsNeg = 0 :=
  ⟨C5_config_normalised.1 (-7) (by decide),
   (C5_config_normalised.2.2.2 exReg exCmp exSat exParse [] exCached [] exOptsNeg (-1)
     rfl (by decide)).1⟩

theorem maxSatStep_origin (parse : String → Option SemVer) (pred : SemVer → Bool) :
    ∀ (vs : List String) (acc : Option (String × SemVer)) (p : String × SemVer),
      vs.foldl (maxSatStep parse pred) acc = some p →
      acc = some p ∨ (p.1 ∈ vs ∧ parse p.1 = some p.2 ∧ pred p.2 = true) := by
  intro vs
  induction vs with
  | nil => intro acc p h; exact Or.inl h
  | cons v rest ih =>
    intro acc p h
    rw [List.foldl_cons] at h
    rcases ih _ p h with h' | h'
    · unfold maxSatStep at h'
      cases hp : parse v with
      | none =>
        rw [hp] at h'
        exact Or.inl h'
      | some s =>
        rw [hp] at h'
        dsimp only at h'
        by_cases hpred : pred s
        · rw [if_pos hpred] at h'
          cases acc with
          | none =>
            dsimp only at h'
            injection h' with h'
            rw [← h']
            exact Or.inr ⟨.head _, hp, hpred⟩
          | some q =>
            obtain ⟨m, ms⟩ := q
            dsimp only at h'
            by_cases hlt : svLt ms s
            · rw [if_pos hlt] at h'
              injection h' with h'
              rw [← h']
              exact Or.inr ⟨.head _, hp, hpred⟩
            · rw [if_neg hlt] at h'
              exact Or.inl h'
        · rw [if_neg hpred] at h'
          exact Or.inl h'
    · exact Or.inr ⟨List.mem_cons_of_mem _ h'.1, h'.2.1, h'.2.2⟩

theorem maxSatStep_improve (parse : String → Option SemVer) (pred : SemVer → Bool) :
    ∀ (vs : List String) (p0 : String × SemVer),
      ∃ p, vs.foldl (maxSatStep parse pred) (some p0) = some p
        ∧ (p = p0 ∨ svLt p0.2 p.2 = true) := by
  intro vs
  induction vs with
  | nil => intro p0; exact ⟨p0, rfl, Or.inl rfl⟩
  | cons v rest ih =>
    intro p0
    obtain ⟨m, ms⟩ := p0
    rw [List.foldl_cons]
    unfold maxSatStep
    cases hp : parse v with
    | none =>
      exact ih (m, ms)
    | some s =>
      dsimp only
      by_cases hpred : pred s
      · rw [if_pos hpred]
        by_cases hlt : svLt ms s
        · rw [if_pos hlt]
          obtain ⟨p, hfold, hrel⟩ := ih (v, s)
          refine ⟨p, hfold, Or.inr ?_⟩
          rcases hrel with rfl | h
          · exact hlt
          · exact svLt_trans hlt h
        · rw [if_neg hlt]
          exact ih (m, ms)
      · rw [if_neg hpred]
        exact ih (m, ms)

theorem maxSatStep_maximal (parse : String → Option SemVer) (pred : SemVer → Bool) :
    ∀ (vs : List String) (acc : Option (String × SemVer)) (w : String) (t : SemVer),
      w ∈ vs → parse w = some t → pred t = true →
      ∃ p, vs.foldl (maxSatStep parse pred) acc = some p ∧ svLt p.2 t = false := by
  intro vs
  induction vs with
  | nil =>
    intro acc w t hw
    cases hw
  | cons v rest ih =>
    intro acc w t hw hpw hpredt
    rw [List.foldl_cons]
    rcases List.mem_cons.mp hw with rfl | hw'
    · unfold maxSatStep
      rw [hpw]
      dsimp only
      rw [if_pos hpredt]
      cases acc with
      | none =>
        dsimp only
        obtain ⟨p, hfold, hrel⟩ := maxSatStep_improve parse pred rest (w, t)
        refine ⟨p, hfold, ?_⟩
        rcases hrel with rfl | h
        · exact svLt_irrefl t
        · exact svLt_asymm h
      | some q =>
        obtain ⟨m, ms⟩ := q
        dsimp only
        by_cases hlt : svLt ms t
        · rw [if_pos hlt]
          obtain ⟨p, hfold, hrel⟩ := maxSatStep_improve parse pred rest (w, t)
          refine ⟨p, hfold, ?_⟩
          rcases hrel with rfl | h
          · exact svLt_irrefl t
          · exact svLt_asymm h
        · rw [if_neg hlt]
          obtain ⟨p, hfold, hrel⟩ := maxSatStep_improve parse pred rest (m, ms)
          refine ⟨p, hfold, ?_⟩
          rcases hrel with rfl | h
          · exact Bool.eq_false_iff.mpr hlt
          · cases hpt : svLt p.2 t with
            | false => rfl
            | true => exact absurd (svLt_trans h hpt) hlt
    · exact ih _ w t hw' hpw hpredt

theorem maxSatisfyingBy_spec {parse : String → Option SemVer} {pred : SemVer → Bool}
    {vs : List String} {v : String} (h : maxSatisfyingBy parse pred vs = some v) :
    v ∈ vs ∧ ∃ s, parse v = some s ∧ pred s = true ∧
      ∀ w ∈ vs, ∀ t, parse w = some t → pred t = true → svLt s t = false := by
  unfold maxSatisfyingBy at h
  cases hfold : vs.foldl (maxSatStep parse pred) none with
  | none =>
    rw [hfold] at h
    cases h
  | some p =>
    rw [hfold] at h
    dsimp only [Option.map] at h
    injection h with h
    rcases maxSatStep_origin parse pred vs none p hfold with h' | ⟨hmem, hparse, hpred⟩
    · cases h'
    refine ⟨h ▸ hmem, p.2, h ▸ hparse, hpred, ?_⟩
    intro w hw t hpt hpredt
    obtain ⟨p', hfold', hmax⟩ := maxSatStep_maximal parse pred vs none w t hw hpt hpredt
    rw [hfold] at hfold'
    injection hfold' with hpp
    exact hpp ▸ hmax

theorem setAdd_mem_of_mem {l : List String} {x : String} (v : String) (h : x ∈ l) :
    x ∈ setAdd l v := by
  unfold setAdd
  split
  · exact h
  · exact List.mem_append_left _ h

theorem setAdd_mem_self (l : List String) (v : String) : v ∈ setAdd l v := by
  unfold setAdd
  split
  · assumption
  · exact List.mem_append_right _ (List.mem_singleton.mpr rfl)

theorem setAdd_mem_elim {l : List String} {v x : String} (h : x ∈ setAdd l v) :
    x ∈ l ∨ x = v := by
  unfold setAdd at h
  split at h
  · exact Or.inl h
  · rcases List.mem_append.mp h with h' | h'
    · exact Or.inl h'
    · exact Or.inr (List.mem_singleton.mp h')

theorem sibAdd_mono {cv r : List String} {x : String} (cand : Option String)
    (h : x ∈ r) : x ∈ sibAdd cv r cand := by
  unfold sibAdd
  cases cand with
  | none => exact h
  | some y =>
    dsimp only
    split
    · exact setAdd_mem_of_mem y h
    · exact h

theorem sibAdd_elim {cv r : List String} {x : String} {cand : Option String}
    (h : x ∈ sibAdd cv r cand) :
    x ∈ r ∨ (cand = some x ∧ x ∉ cv ∧ x ≠ "") := by
  unfold sibAdd at h
  cases cand with
  | none => exact Or.inl h
  | some y =>
    dsimp only at h
    split at h
    · rcases setAdd_mem_elim h with h' | h'
      · exact Or.inl h'
      · subst h'
        rename_i hcond
        exact Or.inr ⟨rfl, hcond.2, hcond.1⟩
    · exact Or.inl h

theorem sibAdd_self {cv r : List String} {y : String}
    (hy : y ∉ cv) (hne : y ≠ "") : y ∈ sibAdd cv r (some y) := by
  unfold sibAdd
  dsimp only
  rw [if_pos ⟨hne, hy⟩]
  exact setAdd_mem_self r y

theorem sibStep_mono (parse : String → Option SemVer) (cv sa : List String) :
    ∀ (r : List String) (c x : String), x ∈ r → x ∈ sibStep parse cv sa r c := by
  intro r c x hx
  unfold sibStep
  cases parse c with
  | none => exact hx
  | some p => exact sibAdd_mono _ (sibAdd_mono _ hx)

theorem sibFold_mono (parse : String → Option SemVer) (cv sa : List String) :
    ∀ (l r : List String) (x : String), x ∈ r →
      x ∈ l.foldl (sibStep parse cv sa) r := by
  intro l
  induction l with
  | nil => intro r x hx; exact hx
  | cons c rest ih =>
    intro r x hx
    rw [List.foldl_cons]
    exact ih _ x (sibStep_mono parse cv sa r c x hx)

theorem sibFold_elim (parse : String → Option SemVer) (cv sa : List String) :
    ∀ (l r : List String) (x : String), x ∈ l.foldl (sibStep parse cv sa) r →
      x ∈ r ∨ ∃ c ∈ l, ∃ p, parse c = some p ∧ x ∉ cv ∧ x ≠ ""
        ∧ (maxSatisfyingBy parse (patchRangePred p.major p.minor) sa = some x
           ∨ maxSatisfyingBy parse (minorRangePred p.major) sa = some x) := by
  intro l
  induction l with
  | nil => intro r x hx; exact Or.inl hx
  | cons c rest ih =>
    intro r x hx
    rw [List.foldl_cons] at hx
    rcases ih _ x hx with h' | ⟨c', hc', p, hp, hncv, hne, hcand⟩
    · unfold sibStep at h'
      cases hpc : parse c with
      | none =>
        rw [hpc] at h'
        exact Or.inl h'
      | some p =>
        rw [hpc] at h'
        dsimp only at h'
        rcases sibAdd_elim h' with h2 | ⟨hcand, hncv, hne⟩
        · rcases sibAdd_elim h2 with h3 | ⟨hcand, hncv, hne⟩
          · exact Or.inl h3
          · exact Or.inr ⟨c, .head _, p, hpc, hncv, hne, Or.inl hcand⟩
        · exact Or.inr ⟨c, .head _, p, hpc, hncv, hne, Or.inr hcand⟩
    · exact Or.inr ⟨c', List.mem_cons_of_mem _ hc', p, hp, hncv, hne, hcand⟩

theorem sibFold_complete (parse : String → Option SemVer) (cv sa : List String) :
    ∀ (l r : List String) (c : String), c ∈ l → ∀ p, parse c = some p →
      ∀ x, (maxSatisfyingBy parse (patchRangePred p.major p.minor) sa = some x
            ∨ maxSatisfyingBy parse (minorRangePred p.major) sa = some x) →
      x ∉ cv → x ≠ "" → x ∈ l.foldl (sibStep parse cv sa) r := by
  intro l
  induction l with
  | nil =>
    intro r c hc
    cases hc
  | cons c0 rest ih =>
    intro r c hc p hp x hcand hncv hne
    rw [List.foldl_cons]
    rcases List.mem_cons.mp hc with rfl | hc'
    · refine sibFold_mono parse cv sa rest _ x ?_
      unfold sibStep
      rw [hp]
      dsimp only
      rcases hcand with hcand | hcand
      · rw [hcand]
        exact sibAdd_mono _ (sibAdd_self hncv hne)
      · rw [hcand]
        exact sibAdd_self hncv hne
    · exact ih _ c hc' p hp x hcand hncv hne

theorem stableFilter_mem {parse : String → Option SemVer}
    {avail : List String} {v : String} (h : v ∈ stableFilter parse avail) :
    v ∈ avail ∧ ∃ s, parse v = some s ∧ s.prerelease = [] := by
  unfold stableFilter at h
  obtain ⟨hmem, hpred⟩ := List.mem_filter.mp h
  refine ⟨hmem, ?_⟩
  cases hp : parse v with
  | none =>
    rw [hp] at hpred
    cases hpred
  | some s =>
    rw [hp] at hpred
    dsimp only at hpred
    exact ⟨s, rfl, List.isEmpty_iff.mp hpred⟩

/-- C3: sibling version completion returns exactly the candidates of its two
range searches: a version is in the output precisely when it is not already
cached and is, for some parseable cached version, the highest stable
available version of the same minor series or the highest stable available
version of the same major series; consequently the output never contains a
cached version and never contains a prerelease version, and each returned
candidate is a maximal satisfying element of the stable candidate pool. -/
theorem C3_sibling_completion (parse : String → Option SemVer)
    (cachedVersions availableVersions : List String)
    (hempty : parse "" = none) :
    (∀ v, v ∈ findSiblingVersions parse cachedVersions availableVersions ↔
      (v ∉ cachedVersions ∧ ∃ c ∈ cachedVersions, ∃ p, parse c = some p ∧
        (maxSatisfyingBy parse (patchRangePred p.major p.minor)
            (stableFilter parse availableVersions) = some v
         ∨ maxSatisfyingBy parse (minorRangePred p.major)
            (stableFilter parse availableVersions) = some v)))
    ∧ (∀ v ∈ findSiblingVersions parse cachedVersions availableVersions,
        v ∉ cachedVersions)
    ∧ (∀ v ∈ findSiblingVersions parse cachedVersions availableVersions,
        v ∈ availableVersions ∧ ∃ s, parse v = some s ∧ s.prerelease = [])
    ∧ (∀ (pred : SemVer → Bool) (vs : List String) (v : String),
        maxSatisfyingBy parse pred vs = some v →
        v ∈ vs ∧ ∃ s, parse v = some s ∧ pred s = true ∧
          ∀ w ∈ vs, ∀ t, parse w = some t → pred t = true → svLt s t = false) := by
  have hiff : ∀ v, v ∈ findSiblingVersions parse cachedVersions availableVersions ↔
      (v ∉ cachedVersions ∧ ∃ c ∈ cachedVersions, ∃ p, parse c = some p ∧
        (maxSatisfyingBy parse (patchRangePred p.major p.minor)
            (stableFilter parse availableVersions) = some v
         ∨ maxSatisfyingBy parse (minorRangePred p.major)
            (stableFilter parse availableVersions) = some v)) := by
    intro v
    constructor
    · intro hv
      unfold findSiblingVersions at hv
      rcases sibFold_elim parse cachedVersions _ cachedVersions [] v hv with h | h
      · cases h
      · obtain ⟨c, hc, p, hp, hncv, _, hcand⟩ := h
        exact ⟨hncv, c, hc, p, hp, hcand⟩
    · rintro ⟨hncv, c, hc, p, hp, hcand⟩
      have hne : v ≠ "" := by
        intro hveq
        subst hveq
        rcases hcand with hcand | hcand <;>
          · obtain ⟨_, s, hs, _⟩ := maxSatisfyingBy_spec hcand
            rw [hempty] at hs
            cases hs
      unfold findSiblingVersions
      exact sibFold_complete parse cachedVersions _ cachedVersions [] c hc p hp v
        hcand hncv hne
  refine ⟨hiff, ?_, ?_, ?_⟩
  · intro v hv
    exact ((hiff v).mp hv).1
  · intro v hv
    obtain ⟨-, c, -, p, -, hcand⟩ := (hiff v).mp hv
    have hmem : v ∈ stableFilter parse availableVersions := by
      rcases hcand with hcand | hcand <;> exact (maxSatisfyingBy_spec hcand).1
    obtain ⟨hav, s, hs, hpre⟩ := stableFilter_mem hmem
    exact ⟨hav, s, hs, hpre⟩
  · intro pred vs v h
    exact maxSatisfyingBy_spec h

theorem C3_witness :
    "1.2.2" ∈ findSiblingVersions parseEx sibCached sibAvail
    ∧ "2.0.0" ∉ sibCached :=
  ⟨((C3_sibling_completion parseEx sibCached sibAvail (by decide)).1 "1.2.2").mpr
    ⟨by decide, "1.2.0", by decide, ⟨1, 2, 0, []⟩, by decide, Or.inl (by decide)⟩,
   by decide⟩

theorem append_char_inj {c : Char} :
    ∀ {a b u w : List Char}, c ∉ a → c ∉ b → a ++ c :: u = b ++ c :: w →
      a = b ∧ u = w := by
  intro a
  induction a with
  | nil =>
    intro b u w _ hb h
    cases b with
    | nil =>
      rw [List.nil_append, List.nil_append] at h
      injection h with _ h
      exact ⟨rfl, h⟩
    | cons d bs =>
      rw [List.nil_append, List.cons_append] at h
      injection h with h1 _
      exact absurd (h1 ▸ List.mem_cons_self d bs) hb
  | cons x as ih =>
    intro b u w ha hb h
    cases b with
    | nil =>
      rw [List.cons_append, List.nil_append] at h
      injection h with h1 _
      exact absurd (h1 ▸ List.mem_cons_self x as) ha
    | cons d bs =>
      rw [List.cons_append, List.cons_append] at h
      injection h with h1 h2
      obtain ⟨hab, huw⟩ := ih (fun hx => ha (List.mem_cons_of_mem _ hx))
        (fun hx => hb (List.mem_cons_of_mem _ hx)) h2
      exact ⟨by rw [h1, hab], huw⟩

theorem append_at_version_inj {n1 v1 n2 v2 : List Char}
    (h1 : '@' ∉ v1) (h2 : '@' ∉ v2)
    (h : n1 ++ '@' :: v1 = n2 ++ '@' :: v2) : n1 = n2 ∧ v1 = v2 := by
  have hrev : v1.reverse ++ '@' :: n1.reverse = v2.reverse ++ '@' :: n2.reverse := by
    have := congrArg List.reverse h
    simpa [List.reverse_append] using this
  obtain ⟨hv, hn⟩ := append_char_inj
    (fun hx => h1 (List.mem_reverse.mp hx))
    (fun hx => h2 (List.mem_reverse.mp hx)) hrev
  constructor
  · have := congrArg List.reverse hn
    simpa using this
  · have := congrArg List.reverse hv
    simpa using this

theorem pkgKey_data (p : PackageToDownload) :
    (pkgKey p).data = p.name.data ++ '@' :: p.version.data := by
  unfold pkgKey
  simp [String.data_append]

theorem nameVer_inj {n1 v1 n2 v2 : String}
    (h1 : '@' ∉ v1.toList) (h2 : '@' ∉ v2.toList)
    (h : n1 ++ "@" ++ v1 = n2 ++ "@" ++ v2) : n1 = n2 ∧ v1 = v2 := by
  have hd := congrArg String.data h
  simp only [String.data_append] at hd
  have hd' : n1.data ++ '@' :: v1.data = n2.data ++ '@' :: v2.data := by
    simpa using hd
  obtain ⟨hn, hv⟩ := append_at_version_inj h1 h2 hd'
  exact ⟨String.ext hn, String.ext hv⟩

theorem pkgKey_inj {p q : PackageToDownload}
    (hp : '@' ∉ p.version.toList) (hq : '@' ∉ q.version.toList)
    (h : pkgKey p = pkgKey q) : p.name = q.name ∧ p.version = q.version :=
  nameVer_inj hp hq h

theorem find?_congr {α : Type} {p q : α → Bool} :
    ∀ {l : List α}, (∀ x ∈ l, p x = q x) → l.find? p = l.find? q := by
  intro l
  induction l with
  | nil => intro _; rfl
  | cons a rest ih =>
    intro h
    have ha := h a (.head _)
    rw [List.find?_cons, List.find?_cons, ← ha]
    cases hpa : p a with
    | true => rfl
    | false => exact ih (fun x hx => h x (List.mem_cons_of_mem _ hx))

theorem find?_append_of_some {α : Type} {p : α → Bool} {l1 : List α} {a : α}
    (l2 : List α) (h : l1.find? p = some a) : (l1 ++ l2).find? p = some a := by
  rw [List.find?_append, h]
  rfl

theorem find?_append_of_none {α : Type} {p : α → Bool} {l1 : List α}
    (l2 : List α) (h : l1.find? p = none) : (l1 ++ l2).find? p = l2.find? p := by
  rw [List.find?_append, h]
  rfl

theorem alookup_append_isSome_left {α : Type} {k : String}
    {l1 : List (String × α)} (l2 : List (String × α))
    (h : (alookup k l1).isSome) : (alookup k (l1 ++ l2)).isSome := by
  induction l1 with
  | nil => simp [alookup] at h
  | cons kv rest ih =>
    by_cases hk : kv.1 = k
    · simp [alookup, hk]
    · simp only [alookup, if_neg hk, List.cons_append] at h ⊢
      exact ih h

theorem dedupFold_inv :
    ∀ (l pre : List PackageToDownload) (seen : List (String × PackageToDownload)),
      (seen.map Prod.fst).Nodup →
      (∀ kp ∈ seen, kp.1 = pkgKey kp.2) →
      (∀ kp ∈ seen, pre.find? (fun q => pkgKey q == kp.1) = some kp.2) →
      (∀ q ∈ pre, (alookup (pkgKey q) seen).isSome) →
      (((l.foldl dedupStep seen).map Prod.fst).Nodup
       ∧ (∀ kp ∈ l.foldl dedupStep seen, kp.1 = pkgKey kp.2)
       ∧ (∀ kp ∈ l.foldl dedupStep seen,
            (pre ++ l).find? (fun q => pkgKey q == kp.1) = some kp.2)
       ∧ (∀ q ∈ pre ++ l, (alookup (pkgKey q) (l.foldl dedupStep seen)).isSome)) := by
  intro l
  induction l with
  | nil =>
    intro pre seen h1 h2 h3 h4
    rw [List.foldl_nil, List.append_nil]
    exact ⟨h1, h2, h3, h4⟩
  | cons pkg rest ih =>
    intro pre seen h1 h2 h3 h4
    rw [List.foldl_cons]
    have happ : pre ++ pkg :: rest = (pre ++ [pkg]) ++ rest := by simp
    by_cases hk : (alookup (pkgKey pkg) seen).isSome
    · have hstep : dedupStep seen pkg = seen := by
        unfold dedupStep
        rw [if_pos hk]
      rw [hstep]
      have hres := ih (pre ++ [pkg]) seen h1 h2
        (fun kp hkp => find?_append_of_some [pkg] (h3 kp hkp))
        (fun q hq => by
          rcases List.mem_append.mp hq with hq' | hq'
          · exact h4 q hq'
          · rw [List.mem_singleton.mp hq']
            exact hk)
      rw [happ]
      exact hres
    · have hstep : dedupStep seen pkg = seen ++ [(pkgKey pkg, pkg)] := by
        unfold dedupStep
        rw [if_neg hk]
      rw [hstep]
      have hkeys : pkgKey pkg ∉ seen.map Prod.fst := fun hmem =>
        hk (alookup_isSome_of_key_mem hmem)
      have halo : alookup (pkgKey pkg) seen = none :=
        Option.not_isSome_iff_eq_none.mp hk
      have h1' : ((seen ++ [(pkgKey pkg, pkg)]).map Prod.fst).Nodup := by
        rw [List.map_append, List.nodup_append]
        refine ⟨h1, by simp, ?_⟩
        intro a ha hb
        simp only [List.map_cons, List.map_nil, List.mem_singleton] at hb
        exact hkeys (hb ▸ ha)
      have h2' : ∀ kp ∈ seen ++ [(pkgKey pkg, pkg)], kp.1 = pkgKey kp.2 := by
        intro kp hkp
        rcases List.mem_append.mp hkp with hkp' | hkp'
        · exact h2 kp hkp'
        · rw [List.mem_singleton.mp hkp']
      have hfind_pre : pre.find? (fun q => pkgKey q == pkgKey pkg) = none := by
        cases hf : pre.find? (fun q => pkgKey q == pkgKey pkg) with
        | none => rfl
        | some q0 =>
          have hq0 : q0 ∈ pre := List.mem_of_find?_eq_some hf
          have heq : pkgKey q0 = pkgKey pkg := by
            have := List.find?_some hf
            exact beq_iff_eq.mp this
          exact absurd (heq ▸ h4 q0 hq0) hk
      have h3' : ∀ kp ∈ seen ++ [(pkgKey pkg, pkg)],
          (pre ++ [pkg]).find? (fun q => pkgKey q == kp.1) = some kp.2 := by
        intro kp hkp
        rcases List.mem_append.mp hkp with hkp' | hkp'
        · exact find?_append_of_some [pkg] (h3 kp hkp')
        · rw [List.mem_singleton.mp hkp']
          rw [find?_append_of_none [pkg] hfind_pre]
          simp [List.find?]
      have h4' : ∀ q ∈ pre ++ [pkg],
          (alookup (pkgKey q) (seen ++ [(pkgKey pkg, pkg)])).isSome := by
        intro q hq
        rcases List.mem_append.mp hq with hq' | hq'
        · exact alookup_append_isSome_left _ (h4 q hq')
        · rw [List.mem_singleton.mp hq']
          rw [alookup_append_of_none halo, alookup_singleton_self]
          rfl
      have hres := ih (pre ++ [pkg]) (seen ++ [(pkgKey pkg, pkg)]) h1' h2' h3' h4'
      rw [happ]
      exact hres

theorem deduplicatePackages_spec (l : List PackageToDownload)
    (hfree : ∀ p ∈ l, '@' ∉ p.version.toList) :
    List.Pairwise (fun a b => ¬(a.name = b.name ∧ a.version = b.version))
      (deduplicatePackages l)
    ∧ (∀ q ∈ deduplicatePackages l,
        l.find? (fun p => p.name == q.name && p.version == q.version) = some q)
    ∧ (∀ p ∈ l, ∃ q ∈ deduplicatePackages l, q.name = p.name ∧ q.version = p.version) := by
  obtain ⟨h1, h2, h3, h4⟩ := dedupFold_inv l [] []
    (by simp) (by simp) (by simp) (by simp)
  rw [List.nil_append] at h3 h4
  have hmemq : ∀ q ∈ deduplicatePackages l, q ∈ l := by
    intro q hq
    obtain ⟨kp, hkp, hkpq⟩ := List.mem_map.mp hq
    have := h3 kp hkp
    rw [h2 kp hkp] at this
    exact hkpq ▸ List.mem_of_find?_eq_some this
  refine ⟨?_, ?_, ?_⟩
  · have hkeys : ((l.foldl dedupStep []).map Prod.fst).Nodup := h1
    have hmapeq : (l.foldl dedupStep []).map Prod.fst =
        (deduplicatePackages l).map pkgKey := by
      unfold deduplicatePackages
      rw [List.map_map]
      exact List.map_congr_left h2
    rw [hmapeq] at hkeys
    have hpw : (deduplicatePackages l).Pairwise (fun a b => pkgKey a ≠ pkgKey b) := by
      rw [List.Nodup, List.pairwise_map] at hkeys
      exact hkeys
    refine hpw.imp ?_
    intro a b hne hab
    apply hne
    unfold pkgKey
    rw [hab.1, hab.2]
  · intro q hq
    obtain ⟨kp, hkp, hkpq⟩ := List.mem_map.mp hq
    have hfd := h3 kp hkp
    rw [h2 kp hkp, hkpq] at hfd
    rw [← hfd]
    apply find?_congr
    intro x hx
    by_cases hxq : x.name = q.name ∧ x.version = q.version
    · have hkeq : pkgKey x = pkgKey q := by
        unfold pkgKey
        rw [hxq.1, hxq.2]
      rw [hkeq]
      simp [hxq.1, hxq.2]
    · have hkne : pkgKey x ≠ pkgKey q := by
        intro hkeq
        exact hxq (pkgKey_inj (hfree x hx) (hfree q (hmemq q hq)) hkeq)
      have hb1 : (pkgKey x == pkgKey q) = false := beq_eq_false_iff_ne.mpr hkne
      have hb2 : (x.name == q.name && x.version == q.version) = false := by
        cases hn : x.name == q.name with
        | false => rfl
        | true =>
          cases hv : x.version == q.version with
          | false => simp
          | true =>
            exact absurd ⟨beq_iff_eq.mp hn, beq_iff_eq.mp hv⟩ hxq
      rw [hb1, hb2]
  · intro p hp
    have := h4 p hp
    obtain ⟨v, hv⟩ := Option.isSome_iff_exists.mp this
    have hvmem : (pkgKey p, v) ∈ l.foldl dedupStep [] := alookup_mem hv
    have hkey : pkgKey p = pkgKey v := h2 _ hvmem
    have hvq : v ∈ deduplicatePackages l :=
      List.mem_map.mpr ⟨(pkgKey p, v), hvmem, rfl⟩
    obtain ⟨hn, hver⟩ := pkgKey_inj (hfree p hp) (hfree v (hmemq v hvq)) hkey
    exact ⟨v, hvq, hn.symm, hver.symm⟩

/-- C6: for every run whose accumulated plan only contains semver-like
version strings (no `@` in a version, true of every real version key), the
returned plan after dedup has no two entries with equal `(name, version)`,
every returned entry is the first-seen accumulated entry for its
`(name, version)` pair (so the first-seen reason and requiredBy are kept),
and every accumulated pair is represented in the returned plan. -/
theorem C6_plan_unique (reg : String → Option Packument)
    (cmpLt sat : String → String → Bool) (parse : String → Option SemVer)
    (cache0 : List (String × Packument)) (cached : List CachedPackage)
    (metadata : List RefreshedMetadata) (o : SyncOptions)
    (hfree : ∀ p ∈ (analyzeRun reg cmpLt sat parse cache0 cached metadata o).1.missing,
      '@' ∉ p.version.toList) :
    List.Pairwise (fun a b => ¬(a.name = b.name ∧ a.version = b.version))
      (analyzeMissingDependencies reg cmpLt sat parse cache0 cached metadata o)
    ∧ (∀ q ∈ analyzeMissingDependencies reg cmpLt sat parse cache0 cached metadata o,
        (analyzeRun reg cmpLt sat parse cache0 cached metadata o).1.missing.find?
          (fun p => p.name == q.name && p.version == q.version) = some q)
    ∧ (∀ p ∈ (analyzeRun reg cmpLt sat parse cache0 cached metadata o).1.missing,
        ∃ q ∈ analyzeMissingDependencies reg cmpLt sat parse cache0 cached metadata o,
          q.name = p.name ∧ q.version = p.version) :=
  deduplicatePackages_spec
    (analyzeRun reg cmpLt sat parse cache0 cached metadata o).1.missing hfree

theorem C6_witness :
    List.Pairwise (fun a b => ¬(a.name = b.name ∧ a.version = b.version))
      (analyzeMissingDependencies exReg exCmp exSat exParse [] exCached [] exOpts3) :=
  (C6_plan_unique exReg exCmp exSat exParse [] exCached [] exOpts3 (by decide)).1

theorem getPackument_preserves {reg : String → Option Packument}
    {cache : List (String × Packument)} {name : String} (n' : String)
    (hreg : reg name = none) (hc : alookup name cache = none) :
    alookup name (getPackument reg cache n').2 = none := by
  unfold getPackument
  cases h1 : alookup n' cache with
  | some p => exact hc
  | none =>
    cases h2 : reg n' with
    | none => exact hc
    | some p =>
      dsimp only
      by_cases hn : n' = name
      · subst hn
        rw [hreg] at h2
        cases h2
      · rw [alookup_append_of_none hc]
        simp [alookup, hn]

theorem prefetch_preserves {reg : String → Option Packument} {name : String}
    (hreg : reg name = none) :
    ∀ (names : List String) (cache : List (String × Packument)),
      alookup name cache = none →
      alookup name (prefetchPackuments reg cache names) = none := by
  intro names
  induction names with
  | nil =>
    intro cache hc
    exact hc
  | cons n' rest ih =>
    intro cache hc
    have hstep : prefetchPackuments reg cache (n' :: rest) =
        prefetchPackuments reg ((getPackument reg cache n').2) rest := by
      unfold prefetchPackuments
      rw [List.foldl_cons]
    rw [hstep]
    exact ih _ (getPackument_preserves n' hreg hc)

theorem resolveVersionFromCache_self_none {reg : String → Option Packument}
    {cmpLt sat : String → String → Bool} {cache : List (String × Packument)}
    {name : String} (r : String)
    (hreg : reg name = none) (hc : alookup name cache = none) :
    resolveVersionFromCache reg cmpLt sat cache name r = (none, cache) := by
  unfold resolveVersionFromCache
  rw [hc, hreg]

theorem resolveVersionFromCache_preserves {reg : String → Option Packument}
    {cmpLt sat : String → String → Bool} {name : String} (n' r : String)
    {cache : List (String × Packument)}
    (hreg : reg name = none) (hc : alookup name cache = none) :
    alookup name (resolveVersionFromCache reg cmpLt sat cache n' r).2 = none := by
  unfold resolveVersionFromCache
  cases h1 : alookup n' cache with
  | some p => exact hc
  | none =>
    cases h2 : reg n' with
    | none => exact hc
    | some p =>
      dsimp only
      by_cases hn : n' = name
      · subst hn
        rw [hreg] at h2
        cases h2
      · rw [alookup_append_of_none hc]
        simp [alookup, hn]

theorem processTarget_shape (reg : String → Option Packument)
    (cmpLt sat : String → String → Bool)
    (cachedMapL : List (String × CachedPackage)) (o : SyncOptions)
    (depth : Nat) (acc : LayerAcc) (t : AnalysisTarget) :
    (processTarget reg cmpLt sat cachedMapL o depth acc t).st.cache =
      (resolveVersionFromCache reg cmpLt sat acc.st.cache t.name t.versionRange).2
    ∧ ((processTarget reg cmpLt sat cachedMapL o depth acc t).st.missing = acc.st.missing
       ∨ ∃ rv, (resolveVersionFromCache reg cmpLt sat acc.st.cache t.name t.versionRange).1
            = some rv
         ∧ (processTarget reg cmpLt sat cachedMapL o depth acc t).st.missing =
            acc.st.missing ++
              [{ name := t.name, version := rv,
                 reason := t.reason.getD
                   (if depth = 0 then .newerVersion else .missingDependency),
                 requiredBy := t.requiredBy }]) := by
  rcases hrc : resolveVersionFromCache reg cmpLt sat acc.st.cache t.name t.versionRange
    with ⟨rv, c2⟩
  simp only [processTarget, hrc]
  cases rv with
  | none => exact ⟨rfl, Or.inl rfl⟩
  | some v =>
    dsimp only
    repeat' split
    all_goals
      first
        | exact ⟨rfl, Or.inl rfl⟩
        | exact ⟨rfl, Or.inr ⟨v, rfl, rfl⟩⟩

theorem processTarget_inv {reg : String → Option Packument}
    {cmpLt sat : String → String → Bool}
    {cachedMapL : List (String × CachedPackage)} {o : SyncOptions}
    {depth : Nat} {name : String} (hreg : reg name = none)
    (acc : LayerAcc) (t : AnalysisTarget)
    (hc : alookup name acc.st.cache = none)
    (hm : ∀ p ∈ acc.st.missing, p.name ≠ name) :
    alookup name (processTarget reg cmpLt sat cachedMapL o depth acc t).st.cache = none
    ∧ ∀ p ∈ (processTarget reg cmpLt sat cachedMapL o depth acc t).st.missing,
        p.name ≠ name := by
  obtain ⟨hcache, hmiss⟩ := processTarget_shape reg cmpLt sat cachedMapL o depth acc t
  constructor
  · rw [hcache]
    exact resolveVersionFromCache_preserves _ _ hreg hc
  · rcases hmiss with heq | ⟨rv, hrv, heq⟩
    · rw [heq]
      exact hm
    · rw [heq]
      intro p hp
      rcases List.mem_append.mp hp with hp' | hp'
      · exact hm p hp'
      · rw [List.mem_singleton.mp hp']
        intro hname
        dsimp at hname
        rw [hname] at hrv
        rw [resolveVersionFromCache_self_none _ hreg hc] at hrv
        cases hrv

theorem layerFold_inv {reg : String → Option Packument}
    {cmpLt sat : String → String → Bool}
    {cachedMapL : List (String × CachedPackage)} {o : SyncOptions}
    {depth : Nat} {name : String} (hreg : reg name = none) :
    ∀ (layer : List AnalysisTarget) (acc : LayerAcc),
      alookup name acc.st.cache = none →
      (∀ p ∈ acc.st.missing, p.name ≠ name) →
      alookup name
        ((layer.foldl (processTarget reg cmpLt sat cachedMapL o depth) acc).st.cache) = none
      ∧ ∀ p ∈ (layer.foldl (processTarget reg cmpLt sat cachedMapL o depth) acc).st.missing,
          p.name ≠ name := by
  intro layer
  induction layer with
  | nil =>
    intro acc hc hm
    exact ⟨hc, hm⟩
  | cons t rest ih =>
    intro acc hc hm
    rw [List.foldl_cons]
    obtain ⟨hc', hm'⟩ := processTarget_inv hreg acc t hc hm
    exact ih _ hc' hm'

theorem runLayer_inv {reg : String → Option Packument}
    {cmpLt sat : String → String → Bool}
    {cachedMapL : List (String × CachedPackage)} {o : SyncOptions}
    {depth : Nat} {name : String} (hreg : reg name = none)
    (st : ResolverState) (layer : List AnalysisTarget)
    (hc : alookup name st.cache = none)
    (hm : ∀ p ∈ st.missing, p.name ≠ name) :
    alookup name (runLayer reg cmpLt sat cachedMapL o depth st layer).1.cache = none
    ∧ ∀ p ∈ (runLayer reg cmpLt sat cachedMapL o depth st layer).1.missing,
        p.name ≠ name := by
  have hdef : (runLayer reg cmpLt sat cachedMapL o depth st layer).1 =
      (layer.foldl (processTarget reg cmpLt sat cachedMapL o depth)
        ⟨{ st with cache := (prefetchPackuments reg st.cache
            (dedupNames (layer.map (·.name)))) }, [], []⟩).st := rfl
  rw [hdef]
  exact layerFold_inv hreg layer _ (prefetch_preserves hreg _ _ hc) hm

theorem analyzeLoop_inv {reg : String → Option Packument}
    {cmpLt sat : String → String → Bool}
    {cachedMapL : List (String × CachedPackage)} {o : SyncOptions}
    {name : String} (hreg : reg name = none) :
    ∀ (fuel : Nat) (st : ResolverState) (layer : List AnalysisTarget) (depth : Nat),
      alookup name st.cache = none →
      (∀ p ∈ st.missing, p.name ≠ name) →
      alookup name (analyzeLoop reg cmpLt sat cachedMapL o fuel st layer depth).1.cache = none
      ∧ ∀ p ∈ (analyzeLoop reg cmpLt sat cachedMapL o fuel st layer depth).1.missing,
          p.name ≠ name := by
  intro fuel
  induction fuel with
  | zero =>
    intro st layer depth hc hm
    rw [analyzeLoop_zero]
    exact ⟨hc, hm⟩
  | succ f ih =>
    intro st layer depth hc hm
    unfold analyzeLoop
    split
    · exact ⟨hc, hm⟩
    · dsimp only
      obtain ⟨hc', hm'⟩ := runLayer_inv hreg st layer hc hm
      exact ih _ _ _ hc' hm'

theorem dedupFold_mem_val :
    ∀ (l : List PackageToDownload) (seen : List (String × PackageToDownload))
      (kp : String × PackageToDownload),
      kp ∈ l.foldl dedupStep seen → kp ∈ seen ∨ kp.2 ∈ l := by
  intro l
  induction l with
  | nil =>
    intro seen kp h
    exact Or.inl h
  | cons pkg rest ih =>
    intro seen kp h
    rw [List.foldl_cons] at h
    rcases ih _ kp h with h' | h'
    · unfold dedupStep at h'
      split at h'
      · exact Or.inl h'
      · rcases List.mem_append.mp h' with h2 | h2
        · exact Or.inl h2
        · rw [List.mem_singleton.mp h2]
          exact Or.inr (.head _)
    · exact Or.inr (List.mem_cons_of_mem _ h')

theorem deduplicatePackages_subset {l : List PackageToDownload}
    {q : PackageToDownload} (h : q ∈ deduplicatePackages l) : q ∈ l := by
  unfold deduplicatePackages at h
  obtain ⟨kp, hkp, hkpq⟩ := List.mem_map.mp h
  rcases dedupFold_mem_val l [] kp hkp with h' | h'
  · cases h'
  · exact hkpq ▸ h'

/-- C7: when the registry fetch for a name fails, `getPackument` returns no
data and stores nothing in the completed-results cache, so a later request
for the same name in the same run retries (and succeeds once the registry
recovers); version resolution for that name yields no version, and a full
analysis run contributes no plan entry for the failed name while the model
of the run is a total function (no exception escapes). -/
theorem C7_fetch_failure_isolated (reg reg2 : String → Option Packument) :
    (∀ (cache : List (String × Packument)) (name : String),
      reg name = none → alookup name cache = none →
      getPackument reg cache name = (none, cache))
    ∧ (∀ (cache : List (String × Packument)) (name : String) (p : Packument),
      alookup name cache = none → reg2 name = some p →
      getPackument reg2 cache name = (some p, cache ++ [(name, p)]))
    ∧ (∀ (cmpLt sat : String → String → Bool) (cache : List (String × Packument))
        (name r : String),
      reg name = none → alookup name cache = none →
      resolveVersionFromCache reg cmpLt sat cache name r = (none, cache))
    ∧ (∀ (cmpLt sat : String → String → Bool) (parse : String → Option SemVer)
        (cache0 : List (String × Packument)) (cached : List CachedPackage)
        (metadata : List RefreshedMetadata) (o : SyncOptions) (name : String),
      reg name = none → alookup name cache0 = none →
      ∀ p ∈ analyzeMissingDependencies reg cmpLt sat parse cache0 cached metadata o,
        p.name ≠ name) := by
  refine ⟨?_, ?_, ?_, ?_⟩
  · intro cache name hreg hc
    unfold getPackument
    rw [hc, hreg]
  · intro cache name p hc hreg2
    unfold getPackument
    rw [hc, hreg2]
  · intro cmpLt sat cache name r hreg hc
    exact resolveVersionFromCache_self_none r hreg hc
  · intro cmpLt sat parse cache0 cached metadata o name hreg hc p hp
    have hmem : p ∈ (analyzeRun reg cmpLt sat parse cache0 cached metadata o).1.missing :=
      deduplicatePackages_subset hp
    have hrun : (analyzeRun reg cmpLt sat parse cache0 cached metadata o).1 =
        (analyzeLoop reg cmpLt sat (cached.map fun q => (q.name, q)) o
          ((effectiveMaxDepth o + 1).toNat) ⟨cache0, [], [], []⟩
          ((buildFirstLayer parse cached metadata o).map Prod.snd) 0).1 := rfl
    rw [hrun] at hmem
    exact (analyzeLoop_inv hreg _ _ _ _ hc (by intro q hq; cases hq)).2 p hmem

theorem C7_witness :
    getPackument exRegFail [] "lodash" = (none, [])
    ∧ getPackument exReg [] "a" = (some packA, [("a", packA)])
    ∧ resolveVersionFromCache exRegFail exCmp exSat [] "lodash" "latest" = (none, [])
    ∧ (∀ p ∈ analyzeMissingDependencies exRegFail exCmp exSat exParse [] exCached [] exOpts3,
        p.name ≠ "zzz") :=
  ⟨(C7_fetch_failure_isolated exRegFail exReg).1 [] "lodash" rfl rfl,
   (C7_fetch_failure_isolated exRegFail exReg).2.1 [] "a" packA rfl (by decide),
   (C7_fetch_failure_isolated exRegFail exReg).2.2.1 exCmp exSat [] "lodash" "latest" rfl rfl,
   (C7_fetch_failure_isolated exRegFail exReg).2.2.2 exCmp exSat exParse [] exCached []
     exOpts3 "zzz" rfl rfl⟩

theorem alookup_some_append {α : Type} {k : String} {l : List (String × α)} {v : α}
    (s : List (String × α)) (h : alookup k l = some v) :
    alookup k (l ++ s) = some v := by
  induction l with
  | nil => simp [alookup] at h
  | cons kv rest ih =>
    by_cases hk : kv.1 = k
    · simp only [alookup, if_pos hk, List.cons_append] at h ⊢
      exact h
    · simp only [alookup, if_neg hk, List.cons_append] at h ⊢
      exact ih h

theorem addFirstLayerTarget_elim {m : List (String × AnalysisTarget)}
    {t : AnalysisTarget} {kt : String × AnalysisTarget}
    (h : kt ∈ addFirstLayerTarget m t) : kt ∈ m ∨ kt = (targetKey t, t) := by
  unfold addFirstLayerTarget at h
  split at h
  · exact Or.inl h
  · rcases List.mem_append.mp h with h' | h'
    · exact Or.inl h'
    · exact Or.inr (List.mem_singleton.mp h')

theorem addFirstLayerTarget_extends (m : List (String × AnalysisTarget))
    (t : AnalysisTarget) : ∃ s, addFirstLayerTarget m t = m ++ s := by
  unfold addFirstLayerTarget
  split
  · exact ⟨[], (List.append_nil m).symm⟩
  · exact ⟨[(targetKey t, t)], rfl⟩

theorem addFirstLayerTarget_key (m : List (String × AnalysisTarget))
    (t : AnalysisTarget) :
    (alookup (targetKey t) (addFirstLayerTarget m t)).isSome := by
  unfold addFirstLayerTarget
  split
  · assumption
  · rename_i hnone
    rw [alookup_append_of_none (Option.not_isSome_iff_eq_none.mp hnone),
      alookup_singleton_self]
    rfl

theorem foldl_app_extends {α β : Type} {f : List α → β → List α}
    (hf : ∀ m b, ∃ s, f m b = m ++ s) :
    ∀ (l : List β) (m : List α), ∃ s, l.foldl f m = m ++ s := by
  intro l
  induction l with
  | nil => intro m; exact ⟨[], (List.append_nil m).symm⟩
  | cons b rest ih =>
    intro m
    rw [List.foldl_cons]
    obtain ⟨s1, hs1⟩ := hf m b
    obtain ⟨s2, hs2⟩ := ih (f m b)
    exact ⟨s1 ++ s2, by rw [hs2, hs1, List.append_assoc]⟩

theorem seedLocalOne_extends (name : String) :
    ∀ (m : List (String × AnalysisTarget)) (v : String),
      ∃ s, seedLocalOne name m v = m ++ s := by
  intro m v
  exact addFirstLayerTarget_extends m _

theorem seedLocalPkg_extends :
    ∀ (m : List (String × AnalysisTarget)) (pkg : CachedPackage),
      ∃ s, seedLocalPkg m pkg = m ++ s := by
  intro m pkg
  exact foldl_app_extends (seedLocalOne_extends pkg.name) pkg.versions m

theorem seedSibOne_extends (name : String) :
    ∀ (m : List (String × AnalysisTarget)) (v : String),
      ∃ s, seedSibOne name m v = m ++ s := by
  intro m v
  exact addFirstLayerTarget_extends m _

theorem seedUpdatePkg_extends (parse : String → Option SemVer)
    (metadata : List RefreshedMetadata) (o : SyncOptions) :
    ∀ (m : List (String × AnalysisTarget)) (pkg : CachedPackage),
      ∃ s, seedUpdatePkg parse metadata o m pkg = m ++ s := by
  intro m pkg
  unfold seedUpdatePkg
  cases hmeta : lookupLast pkg.name (metadata.map fun md => (md.name, md)) with
  | none => exact ⟨[], (List.append_nil m).symm⟩
  | some meta =>
    dsimp only
    have hm1 : ∃ s1, (if o.updateToLatest then
        match alookup "latest" meta.distTags with
        | some latestVersion =>
          if latestVersion ≠ "" ∧ latestVersion ∉ pkg.versions then
            addFirstLayerTarget m
              ⟨pkg.name, latestVersion, some "update-to-latest", some .newerVersion⟩
          else m
        | none => m
      else m) = m ++ s1 := by
      split
      · split
        · split
          · exact addFirstLayerTarget_extends m _
          · exact ⟨[], (List.append_nil m).symm⟩
        · exact ⟨[], (List.append_nil m).symm⟩
      · exact ⟨[], (List.append_nil m).symm⟩
    obtain ⟨s1, hs1⟩ := hm1
    rw [hs1]
    split
    · obtain ⟨s2, hs2⟩ := foldl_app_extends (seedSibOne_extends pkg.name)
        (findSiblingVersions parse pkg.versions meta.versions) (m ++ s1)
      exact ⟨s1 ++ s2, by rw [hs2, List.append_assoc]⟩
    · exact ⟨s1, rfl⟩

theorem seedUpdateTargets_extends (parse : String → Option SemVer)
    (cached : List CachedPackage) (metadata : List RefreshedMetadata)
    (o : SyncOptions) (m : List (String × AnalysisTarget)) :
    ∃ s, seedUpdateTargets parse cached metadata o m = m ++ s :=
  foldl_app_extends (seedUpdatePkg_extends parse metadata o) cached m

theorem seedLocalVersions_elim (name : String) :
    ∀ (vs : List String) (m : List (String × AnalysisTarget))
      (kt : String × AnalysisTarget),
      kt ∈ vs.foldl (seedLocalOne name) m →
      kt ∈ m ∨ ∃ v ∈ vs,
        kt = (targetKey ⟨name, v, some "local-cache", some .missingDependency⟩,
          ⟨name, v, some "local-cache", some .missingDependency⟩) := by
  intro vs
  induction vs with
  | nil => intro m kt h; exact Or.inl h
  | cons v rest ih =>
    intro m kt h
    rw [List.foldl_cons] at h
    rcases ih _ kt h with h' | ⟨v', hv', heq⟩
    · rcases addFirstLayerTarget_elim h' with h2 | h2
      · exact Or.inl h2
      · exact Or.inr ⟨v, .head _, h2⟩
    · exact Or.inr ⟨v', List.mem_cons_of_mem _ hv', heq⟩

theorem seedLocal_elim :
    ∀ (cached : List CachedPackage) (m : List (String × AnalysisTarget))
      (kt : String × AnalysisTarget),
      kt ∈ seedLocalTargets cached m →
      kt ∈ m ∨ ∃ q ∈ cached, ∃ v ∈ q.versions,
        kt = (targetKey ⟨q.name, v, some "local-cache", some .missingDependency⟩,
          ⟨q.name, v, some "local-cache", some .missingDependency⟩) := by
  intro cached
  induction cached with
  | nil => intro m kt h; exact Or.inl h
  | cons q rest ih =>
    intro m kt h
    unfold seedLocalTargets at h
    rw [List.foldl_cons] at h
    rcases ih _ kt h with h' | ⟨q', hq', v, hv, heq⟩
    · rcases seedLocalVersions_elim q.name q.versions m kt h' with h2 | ⟨v, hv, heq⟩
      · exact Or.inl h2
      · exact Or.inr ⟨q, .head _, v, hv, heq⟩
    · exact Or.inr ⟨q', List.mem_cons_of_mem _ hq', v, hv, heq⟩

theorem seedLocalVersions_key (name : String) :
    ∀ (vs : List String) (m : List (String × AnalysisTarget)) (v : String),
      v ∈ vs →
      (alookup (name ++ "@" ++ v) (vs.foldl (seedLocalOne name) m)).isSome := by
  intro vs
  induction vs with
  | nil =>
    intro m v hv
    cases hv
  | cons v0 rest ih =>
    intro m v hv
    rw [List.foldl_cons]
    rcases List.mem_cons.mp hv with rfl | hv'
    · obtain ⟨s, hs⟩ := foldl_app_extends (seedLocalOne_extends name) rest
        (seedLocalOne name m v)
      rw [hs]
      exact alookup_append_isSome_left s
        (addFirstLayerTarget_key m ⟨name, v, some "local-cache", some .missingDependency⟩)
    · exact ih _ v hv'

theorem seedLocal_key :
    ∀ (cached : List CachedPackage) (m : List (String × AnalysisTarget))
      (pkg : CachedPackage) (v : String), pkg ∈ cached → v ∈ pkg.versions →
      (alookup (pkg.name ++ "@" ++ v) (seedLocalTargets cached m)).isSome := by
  intro cached
  induction cached with
  | nil =>
    intro m pkg v hpkg
    cases hpkg
  | cons q rest ih =>
    intro m pkg v hpkg hv
    unfold seedLocalTargets
    rw [List.foldl_cons]
    rcases List.mem_cons.mp hpkg with rfl | hpkg'
    · have hkey := seedLocalVersions_key pkg.name pkg.versions m v hv
      obtain ⟨s, hs⟩ := foldl_app_extends seedLocalPkg_extends rest (seedLocalPkg m pkg)
      show (alookup (pkg.name ++ "@" ++ v)
        (rest.foldl seedLocalPkg (seedLocalPkg m pkg))).isSome
      rw [hs]
      exact alookup_append_isSome_left s hkey
    · exact ih _ pkg v hpkg' hv

theorem seedSibFold_elim (name : String) :
    ∀ (svs : List String) (m : List (String × AnalysisTarget))
      (kt : String × AnalysisTarget),
      kt ∈ svs.foldl (seedSibOne name) m → kt ∈ m ∨ kt.2.name = name := by
  intro svs
  induction svs with
  | nil => intro m kt h; exact Or.inl h
  | cons sv rest ih =>
    intro m kt h
    rw [List.foldl_cons] at h
    rcases ih _ kt h with h' | h'
    · rcases addFirstLayerTarget_elim h' with h2 | h2
      · exact Or.inl h2
      · rw [h2]
        exact Or.inr rfl
    · exact Or.inr h'

theorem seedUpdatePkg_elim {parse : String → Option SemVer}
    {metadata : List RefreshedMetadata} {o : SyncOptions} :
    ∀ (m : List (String × AnalysisTarget)) (pkg : CachedPackage)
      (kt : String × AnalysisTarget),
      kt ∈ seedUpdatePkg parse metadata o m pkg →
      kt ∈ m ∨ ((lookupLast pkg.name (metadata.map fun md => (md.name, md))).isSome
        ∧ kt.2.name = pkg.name) := by
  intro m pkg kt h
  unfold seedUpdatePkg at h
  cases hmeta : lookupLast pkg.name (metadata.map fun md => (md.name, md)) with
  | none =>
    rw [hmeta] at h
    exact Or.inl h
  | some meta =>
    rw [hmeta] at h
    dsimp only at h
    have hm1 : ∀ kt', kt' ∈ (if o.updateToLatest then
        match alookup "latest" meta.distTags with
        | some latestVersion =>
          if latestVersion ≠ "" ∧ latestVersion ∉ pkg.versions then
            addFirstLayerTarget m
              ⟨pkg.name, latestVersion, some "update-to-latest", some .newerVersion⟩
          else m
        | none => m
      else m) → kt' ∈ m ∨ kt'.2.name = pkg.name := by
      intro kt' h'
      split at h'
      · split at h'
        · split at h'
          · rcases addFirstLayerTarget_elim h' with h2 | h2
            · exact Or.inl h2
            · rw [h2]
              exact Or.inr rfl
          · exact Or.inl h'
        · exact Or.inl h'
      · exact Or.inl h'
    split at h
    · rcases seedSibFold_elim pkg.name _ _ kt h with h' | h'
      · rcases hm1 kt h' with h2 | h2
        · exact Or.inl h2
        · exact Or.inr ⟨rfl, h2⟩
      · exact Or.inr ⟨rfl, h'⟩
    · rcases hm1 kt h with h2 | h2
      · exact Or.inl h2
      · exact Or.inr ⟨rfl, h2⟩

theorem seedUpdateTargets_elim {parse : String → Option SemVer}
    {metadata : List RefreshedMetadata} {o : SyncOptions} :
    ∀ (cached : List CachedPackage) (m : List (String × AnalysisTarget))
      (kt : String × AnalysisTarget),
      kt ∈ seedUpdateTargets parse cached metadata o m →
      kt ∈ m ∨ ∃ q ∈ cached,
        (lookupLast q.name (metadata.map fun md => (md.name, md))).isSome
        ∧ kt.2.name = q.name := by
  intro cached
  induction cached with
  | nil => intro m kt h; exact Or.inl h
  | cons q rest ih =>
    intro m kt h
    unfold seedUpdateTargets at h
    rw [List.foldl_cons] at h
    rcases ih _ kt h with h' | ⟨q', hq', hmeta, hname⟩
    · rcases seedUpdatePkg_elim m q kt h' with h2 | ⟨hmeta, hname⟩
      · exact Or.inl h2
      · exact Or.inr ⟨q, .head _, hmeta, hname⟩
    · exact Or.inr ⟨q', List.mem_cons_of_mem _ hq', hmeta, hname⟩

theorem lookupLast_none_of_names {metadata : List RefreshedMetadata} {n : String}
    (h : ∀ md ∈ metadata, md.name ≠ n) :
    lookupLast n (metadata.map fun md => (md.name, md)) = none := by
  unfold lookupLast
  apply alookup_eq_none_of_keys
  intro kv hkv
  rw [List.mem_reverse] at hkv
  obtain ⟨md, hmd, hkveq⟩ := List.mem_map.mp hkv
  rw [← hkveq]
  exact h md hmd

/-- C10: for a cached package whose name is absent from the refreshed
metadata passed to the analysis, the first BFS layer contains no
newer-version or sibling-version target for that package — every seeded
target with that name is a local-cache root with reason missing-dependency
and a locally cached version — while each of its locally cached versions is
still seeded as such a root target. -/
theorem C10_metadata_absent_seeding (parse : String → Option SemVer)
    (cached : List CachedPackage) (metadata : List RefreshedMetadata)
    (o : SyncOptions) (pkg : CachedPackage)
    (hpkg : pkg ∈ cached)
    (hmiss : ∀ md ∈ metadata, md.name ≠ pkg.name)
    (hfree : ∀ q ∈ cached, ∀ v ∈ q.versions, '@' ∉ v.toList) :
    (∀ kt ∈ buildFirstLayer parse cached metadata o, kt.2.name = pkg.name →
      kt.2.requiredBy = some "local-cache" ∧ kt.2.reason = some .missingDependency
      ∧ ∃ q ∈ cached, q.name = pkg.name ∧ kt.2.versionRange ∈ q.versions)
    ∧ (∀ v ∈ pkg.versions, ∃ kt ∈ buildFirstLayer parse cached metadata o,
        kt.2.name = pkg.name ∧ kt.2.versionRange = v
        ∧ kt.2.requiredBy = some "local-cache"
        ∧ kt.2.reason = some .missingDependency) := by
  constructor
  · intro kt hkt hname
    rcases seedUpdateTargets_elim cached _ kt hkt with h' | ⟨q, hq, hmeta, hqname⟩
    · rcases seedLocal_elim cached [] kt h' with h2 | ⟨q, hq, v, hv, heq⟩
      · cases h2
      · rw [heq]
        rw [heq] at hname
        dsimp at hname ⊢
        exact ⟨rfl, rfl, q, hq, hname, hv⟩
    · have hqp : q.name = pkg.name := by rw [← hqname, hname]
      rw [hqp, lookupLast_none_of_names hmiss] at hmeta
      cases hmeta
  · intro v hv
    have hkey := seedLocal_key cached [] pkg v hpkg hv
    obtain ⟨tval, htval⟩ := Option.isSome_iff_exists.mp hkey
    obtain ⟨s, hs⟩ := seedUpdateTargets_extends parse cached metadata o
      (seedLocalTargets cached [])
    have halo : alookup (pkg.name ++ "@" ++ v) (buildFirstLayer parse cached metadata o)
        = some tval := by
      unfold buildFirstLayer
      rw [hs]
      exact alookup_some_append s htval
    have hmem : (pkg.name ++ "@" ++ v, tval) ∈ buildFirstLayer parse cached metadata o :=
      alookup_mem halo
    have hmemL : (pkg.name ++ "@" ++ v, tval) ∈ seedLocalTargets cached [] :=
      alookup_mem htval
    rcases seedLocal_elim cached [] _ hmemL with h2 | ⟨q, hq, v', hv', heq⟩
    · cases h2
    · have hkeyeq : pkg.name ++ "@" ++ v = q.name ++ "@" ++ v' := congrArg Prod.fst heq
      obtain ⟨hqn, hvv⟩ := nameVer_inj (hfree pkg hpkg v hv) (hfree q hq v' hv') hkeyeq
      have htveq : tval = ⟨q.name, v', some "local-cache", some .missingDependency⟩ :=
        congrArg Prod.snd heq
      refine ⟨(pkg.name ++ "@" ++ v, tval), hmem, ?_, ?_, ?_, ?_⟩
      · rw [htveq, ← hqn]
      · rw [htveq, ← hvv]
      · rw [htveq]
      · rw [htveq]

theorem C10_witness :
    ∃ kt ∈ buildFirstLayer parseEx exCached exMetaOther exOptsAll,
      kt.2.name = "a" ∧ kt.2.versionRange = "1.0.0"
      ∧ kt.2.requiredBy = some "local-cache"
      ∧ kt.2.reason = some .missingDependency :=
  (C10_metadata_absent_seeding parseEx exCached exMetaOther exOptsAll
    ⟨"a", ["1.0.0"]⟩ (by decide) (by decide) (by decide)).2 "1.0.0" (by decide)

end VOS
